import Mathlib

/-!
# gossipdemo: the replicated store and its gossip delegate

A shallow embedding of `src/main.go`: the global mapping `items`, the memberlist
delegate (`NotifyMsg`, `LocalState`, `MergeRemoteState`), the HTTP handlers that
build the gossip messages, `broadcast.Invalidates` and `start`.

Go strings and byte slices are sequences of bytes; `map[string]string` is a finite
mapping kept here in its canonical form (entries in ascending key order), so that two
Go maps with the same contents are the same value.  The calls into `encoding/json`
(`json.Marshal`, `json.Unmarshal`) are embedded for the two static types the program
uses them at, `[]*update` and `map[string]string`.

Main results:
* `NotifyMsg_single_update`, `NotifyMsg_last_write_wins`, `NotifyMsg_add_idempotent`,
  `deliver_order_independent`: what applying gossiped Updates does to the mapping;
* `NotifyMsg_null_element_panics`, `NotifyMsg_all_or_nothing`: a `null` array element
  makes `NotifyMsg` panic part-way; every other message is applied whole or not at all;
* `MergeRemoteState_reference`, `antiEntropy_repairs_missed_add`,
  `antiEntropy_missed_del_not_repaired`: the join-time merge overwrites and never removes;
* `handler_message_roundtrip`, `handler_message_invalid_utf8_key`: the handlers' messages
  reproduce the local change on a receiver exactly when key and value are valid UTF-8;
* `Invalidates_always_false`, `start_error_iff`: the queue hook and the start-up errors;
* `applyData_visit_order`, `parseValue_fuel`, `NotifyMsg_utf8`: the embedding does not
  depend on the order of `range`, the fuel is enough, stored strings stay valid UTF-8.
-/

namespace Gossipdemo

/-! ## Go strings -/

/-- Go `byte`. -/
abbrev Byte := Fin 256

/-- Go `string` / `[]byte`: a finite sequence of bytes (not necessarily valid UTF-8). -/
abbrev GoString := List Byte

/-- The bytes of an ASCII literal of the source, such as `"add"`. -/
def ascii (s : String) : GoString := s.toList.map (fun c => Fin.ofNat c.toNat)

/-- Go's `<` on strings: byte-wise lexicographic order, a proper prefix being smaller. -/
def strLess : GoString → GoString → Bool
  | [], [] => false
  | [], _ :: _ => true
  | _ :: _, [] => false
  | a :: as, b :: bs =>
    if a.val < b.val then true else if a = b then strLess as bs else false

/-! ## `map[string]string` -/

/-- One key/value pair of a Go map. -/
abbrev Entry := GoString × GoString

/-- Keys strictly ascending: the canonical order of a map's entries. -/
def keysAscending (l : List Entry) : Prop :=
  l.Pairwise (fun a b => strLess a.1 b.1 = true)

instance (l : List Entry) : Decidable (keysAscending l) := by
  unfold keysAscending; infer_instance

/-- Value stored under `k` in a list of entries. -/
def lookupEntry (k : GoString) : List Entry → Option GoString
  | [] => none
  | (k', v') :: rest => if k = k' then some v' else lookupEntry k rest

/-- Entry list after `m[k] = v`: the value under `k` is replaced, or the entry is
inserted at its place in key order. -/
def insertEntry (k v : GoString) : List Entry → List Entry
  | [] => [(k, v)]
  | (k', v') :: rest =>
    if strLess k k' then (k, v) :: (k', v') :: rest
    else if k = k' then (k, v) :: rest
    else (k', v') :: insertEntry k v rest

/-- Entry list after `delete(m, k)`. -/
def eraseEntry (k : GoString) : List Entry → List Entry
  | [] => []
  | (k', v') :: rest => if k = k' then rest else (k', v') :: eraseEntry k rest

theorem strLess_irrefl (a : GoString) : strLess a a = false := by
  induction a with
  | nil => rfl
  | cons x xs ih => simp [strLess, ih]

theorem strLess_trans {a b c : GoString} (hab : strLess a b = true)
    (hbc : strLess b c = true) : strLess a c = true := by
  induction a generalizing b c with
  | nil =>
    cases b with
    | nil => simp [strLess] at hab
    | cons y ys =>
      cases c with
      | nil => simp [strLess] at hbc
      | cons z zs => simp [strLess]
  | cons x xs ih =>
    cases b with
    | nil => simp [strLess] at hab
    | cons y ys =>
      cases c with
      | nil => simp [strLess] at hbc
      | cons z zs =>
        simp only [strLess] at hab hbc ⊢
        by_cases hxy : x.val < y.val
        · by_cases hyz : y.val < z.val
          · have : x.val < z.val := by omega
            simp [this]
          · simp only [hyz, if_false] at hbc
            by_cases hyz2 : y = z
            · subst hyz2; simp [hxy]
            · simp [hyz2] at hbc
        · simp only [hxy, if_false] at hab
          by_cases hxy2 : x = y
          · subst hxy2
            simp only [if_true] at hab
            by_cases hyz : x.val < z.val
            · simp [hyz]
            · simp only [hyz, if_false] at hbc ⊢
              by_cases hxz : x = z
              · subst hxz
                simp only [if_true] at hbc ⊢
                exact ih hab hbc
              · simp [hxz] at hbc
          · simp [hxy2] at hab

theorem strLess_total {a b : GoString} (h1 : strLess a b = false) (h2 : a ≠ b) :
    strLess b a = true := by
  induction a generalizing b with
  | nil =>
    cases b with
    | nil => exact absurd rfl h2
    | cons y ys => simp [strLess] at h1
  | cons x xs ih =>
    cases b with
    | nil => simp [strLess]
    | cons y ys =>
      simp only [strLess] at h1 ⊢
      by_cases hxy : x.val < y.val
      · simp [hxy] at h1
      · simp only [hxy, if_false] at h1
        by_cases hxy2 : x = y
        · subst hxy2
          simp only [if_true] at h1
          have hne : xs ≠ ys := fun h => h2 (by rw [h])
          simp [ih h1 hne]
        · have : y.val < x.val := by
            have : x.val ≠ y.val := fun h => hxy2 (Fin.ext h)
            omega
          simp [this]

theorem strLess_ne {a b : GoString} (h : strLess a b = true) : a ≠ b := by
  intro hab
  subst hab
  rw [strLess_irrefl] at h
  exact Bool.false_ne_true h

theorem strLess_asymm {a b : GoString} (h : strLess a b = true) : strLess b a = false := by
  by_contra h'
  have h'' : strLess b a = true := by simpa using h'
  have := strLess_trans h h''
  rw [strLess_irrefl] at this
  exact Bool.false_ne_true this

theorem keysAscending_cons {e : Entry} {l : List Entry} :
    keysAscending (e :: l) ↔ (∀ e' ∈ l, strLess e.1 e'.1 = true) ∧ keysAscending l := by
  unfold keysAscending
  exact List.pairwise_cons

theorem mem_insertEntry {k v : GoString} {l : List Entry} {e : Entry}
    (h : e ∈ insertEntry k v l) : e = (k, v) ∨ e ∈ l := by
  induction l with
  | nil => simpa [insertEntry] using h
  | cons hd tl ih =>
    obtain ⟨k', v'⟩ := hd
    simp only [insertEntry] at h
    split_ifs at h with h1 h2
    · rcases List.mem_cons.1 h with h | h
      · exact Or.inl h
      · exact Or.inr h
    · rcases List.mem_cons.1 h with h | h
      · exact Or.inl h
      · exact Or.inr (List.mem_cons_of_mem _ h)
    · rcases List.mem_cons.1 h with h | h
      · exact Or.inr (h ▸ List.mem_cons_self _ _)
      · rcases ih h with h | h
        · exact Or.inl h
        · exact Or.inr (List.mem_cons_of_mem _ h)

theorem keysAscending_insertEntry (k v : GoString) {l : List Entry}
    (h : keysAscending l) : keysAscending (insertEntry k v l) := by
  induction l with
  | nil => simp [insertEntry, keysAscending]
  | cons hd tl ih =>
    obtain ⟨k', v'⟩ := hd
    obtain ⟨hhd, htl⟩ := keysAscending_cons.1 h
    simp only [insertEntry]
    split_ifs with h1 h2
    · refine keysAscending_cons.2 ⟨?_, h⟩
      intro e he
      rcases List.mem_cons.1 he with he | he
      · subst he; exact h1
      · exact strLess_trans h1 (hhd e he)
    · subst h2
      exact keysAscending_cons.2 ⟨hhd, htl⟩
    · refine keysAscending_cons.2 ⟨?_, ih htl⟩
      intro e he
      rcases mem_insertEntry he with he | he
      · subst he; exact strLess_total (by simpa using h1) h2
      · exact hhd e he

theorem mem_eraseEntry {k : GoString} {l : List Entry} {e : Entry}
    (h : e ∈ eraseEntry k l) : e ∈ l := by
  induction l with
  | nil => simp [eraseEntry] at h
  | cons hd tl ih =>
    obtain ⟨k', v'⟩ := hd
    simp only [eraseEntry] at h
    split_ifs at h with h1
    · exact List.mem_cons_of_mem _ h
    · rcases List.mem_cons.1 h with h | h
      · exact h ▸ List.mem_cons_self _ _
      · exact List.mem_cons_of_mem _ (ih h)

theorem keysAscending_eraseEntry (k : GoString) {l : List Entry}
    (h : keysAscending l) : keysAscending (eraseEntry k l) := by
  induction l with
  | nil => simp [eraseEntry, keysAscending]
  | cons hd tl ih =>
    obtain ⟨k', v'⟩ := hd
    obtain ⟨hhd, htl⟩ := keysAscending_cons.1 h
    simp only [eraseEntry]
    split_ifs with h1
    · exact htl
    · exact keysAscending_cons.2 ⟨fun e he => hhd e (mem_eraseEntry he), ih htl⟩

/-- Go `map[string]string`, as its entries in ascending key order.  A nil map and an
empty map are both the empty list: the program only ranges over, reads from and
marshals non-nil maps, and ranging over a nil map visits nothing. -/
structure GoMap where
  entries : List Entry
  ascending : keysAscending entries
deriving DecidableEq

namespace GoMap

/-- The map literal `map[string]string{}`. -/
def empty : GoMap := ⟨[], List.Pairwise.nil⟩

/-- Presence and value of `k`: `v, ok := m[k]`. -/
def get (m : GoMap) (k : GoString) : Option GoString := lookupEntry k m.entries

/-- The assignment `m[k] = v`. -/
def set (m : GoMap) (k v : GoString) : GoMap :=
  ⟨insertEntry k v m.entries, keysAscending_insertEntry k v m.ascending⟩

/-- The builtin `delete(m, k)`. -/
def delete (m : GoMap) (k : GoString) : GoMap :=
  ⟨eraseEntry k m.entries, keysAscending_eraseEntry k m.ascending⟩

end GoMap

/-! ## UTF-8 (`unicode/utf8`, `unicode/utf16`), as used by `encoding/json` -/

/-- The rune `utf8.RuneError`, U+FFFD. -/
def RuneError : Nat := 0xFFFD

/-- Whether `b` is a UTF-8 continuation byte, `0x80..0xBF`. -/
def isCont (b : Byte) : Bool := decide (0x80 ≤ b.val ∧ b.val ≤ 0xBF)

/-- The table `acceptRanges`, low end: the smallest second byte allowed after the lead
byte `b0` (which excludes over-long encodings). -/
def secondLo (b0 : Byte) : Nat :=
  if b0.val = 0xE0 then 0xA0 else if b0.val = 0xF0 then 0x90 else 0x80

/-- The table `acceptRanges`, high end: the largest second byte allowed after the lead
byte `b0` (which excludes surrogate halves and runes beyond U+10FFFF). -/
def secondHi (b0 : Byte) : Nat :=
  if b0.val = 0xED then 0x9F else if b0.val = 0xF4 then 0x8F else 0xBF

/-- Go `utf8.DecodeRune`: the first rune of `p` and its width in bytes; `(RuneError, 0)`
for empty input and `(RuneError, 1)` for an encoding that is invalid, too short,
over-long, a surrogate half or beyond U+10FFFF. -/
def decodeRune (p : GoString) : Nat × Nat :=
  match p with
  | [] => (RuneError, 0)
  | b0 :: rest =>
    if b0.val < 0x80 then (b0.val, 1)
    else if 0xC2 ≤ b0.val ∧ b0.val ≤ 0xDF then
      match rest with
      | b1 :: _ =>
        if isCont b1 = true then ((b0.val % 32) * 64 + b1.val % 64, 2) else (RuneError, 1)
      | _ => (RuneError, 1)
    else if 0xE0 ≤ b0.val ∧ b0.val ≤ 0xEF then
      match rest with
      | b1 :: b2 :: _ =>
        if secondLo b0 ≤ b1.val ∧ b1.val ≤ secondHi b0 ∧ isCont b2 = true then
          ((b0.val % 16) * 4096 + (b1.val % 64) * 64 + b2.val % 64, 3)
        else (RuneError, 1)
      | _ => (RuneError, 1)
    else if 0xF0 ≤ b0.val ∧ b0.val ≤ 0xF4 then
      match rest with
      | b1 :: b2 :: b3 :: _ =>
        if secondLo b0 ≤ b1.val ∧ b1.val ≤ secondHi b0
            ∧ isCont b2 = true ∧ isCont b3 = true then
          ((b0.val % 8) * 262144 + (b1.val % 64) * 4096 + (b2.val % 64) * 64 + b3.val % 64, 4)
        else (RuneError, 1)
      | _ => (RuneError, 1)
    else (RuneError, 1)

/-- Go `utf8.EncodeRune`: the UTF-8 encoding of rune `r`; a surrogate half or a value
beyond U+10FFFF is encoded as U+FFFD. -/
def encodeRune (r : Nat) : GoString :=
  if r ≤ 0x7F then [Fin.ofNat r]
  else if r ≤ 0x7FF then [Fin.ofNat (0xC0 + r / 64), Fin.ofNat (0x80 + r % 64)]
  else if 0x10FFFF < r ∨ (0xD800 ≤ r ∧ r ≤ 0xDFFF) then [0xEF, 0xBF, 0xBD]
  else if r ≤ 0xFFFF then
    [Fin.ofNat (0xE0 + r / 4096), Fin.ofNat (0x80 + r / 64 % 64), Fin.ofNat (0x80 + r % 64)]
  else
    [Fin.ofNat (0xF0 + r / 262144), Fin.ofNat (0x80 + r / 4096 % 64),
     Fin.ofNat (0x80 + r / 64 % 64), Fin.ofNat (0x80 + r % 64)]

/-- Go `utf8.Valid`: every rune of `s` is a valid encoding.  The fuel is the number of
runes examined; `s.length` always suffices. -/
def validUTF8Fuel : Nat → GoString → Bool
  | _, [] => true
  | 0, _ :: _ => false
  | fuel + 1, b :: rest =>
    if b.val < 0x80 then validUTF8Fuel fuel rest
    else
      let d := decodeRune (b :: rest)
      if d.1 = RuneError ∧ d.2 = 1 then false
      else validUTF8Fuel fuel ((b :: rest).drop d.2)

/-- Go `utf8.Valid(s)`. -/
def validUTF8 (s : GoString) : Bool := validUTF8Fuel s.length s

/-- Go `utf16.IsSurrogate`. -/
def isSurrogate (r : Nat) : Bool := decide (0xD800 ≤ r ∧ r < 0xE000)

/-- Go `utf16.DecodeRune`: the rune of a surrogate pair, U+FFFD when `(r1, r2)` is not a
valid pair; `r2 = none` stands for the `-1` that `getu4` returns on failure. -/
def utf16DecodeRune (r1 : Nat) (r2 : Option Nat) : Nat :=
  match r2 with
  | some r2 =>
    if 0xD800 ≤ r1 ∧ r1 < 0xDC00 ∧ 0xDC00 ≤ r2 ∧ r2 < 0xE000 then
      (r1 - 0xD800) * 1024 + (r2 - 0xDC00) + 0x10000
    else RuneError
  | none => RuneError

/-! ## `encoding/json`: reading -/

/-- Value of a hexadecimal digit, as in `getu4`. -/
def hexVal (c : Byte) : Option Nat :=
  if 0x30 ≤ c.val ∧ c.val ≤ 0x39 then some (c.val - 0x30)
  else if 0x61 ≤ c.val ∧ c.val ≤ 0x66 then some (c.val - 0x61 + 10)
  else if 0x41 ≤ c.val ∧ c.val ≤ 0x46 then some (c.val - 0x41 + 10)
  else none

/-- Go `getu4`: the code unit of a `\uXXXX` escape at the start of `s`, `none` when `s`
does not start with one. -/
def getu4 : GoString → Option Nat
  | b :: u :: h1 :: h2 :: h3 :: h4 :: _ =>
    if b.val = 0x5C ∧ u.val = 0x75 then
      match hexVal h1, hexVal h2, hexVal h3, hexVal h4 with
      | some a, some b, some c, some d => some (((a * 16 + b) * 16 + c) * 16 + d)
      | _, _, _, _ => none
    else none
  | _ => none

/-- The scanner inside a string literal (`stateInString`, `stateInStringEsc`,
`stateInStringEscU...`): reads up to the closing quote and returns the literal's body
and the input after the quote; `none` on a control character, a bad escape or a
missing closing quote. -/
def scanStringLit : GoString → Option (GoString × GoString)
  | [] => none
  | c :: rest =>
    if c.val = 0x22 then some ([], rest)
    else if c.val = 0x5C then
      match rest with
      | [] => none
      | e :: rest1 =>
        if e.val = 0x22 ∨ e.val = 0x5C ∨ e.val = 0x2F ∨ e.val = 0x62 ∨ e.val = 0x66
            ∨ e.val = 0x6E ∨ e.val = 0x72 ∨ e.val = 0x74 then
          (scanStringLit rest1).map (fun r => (c :: e :: r.1, r.2))
        else if e.val = 0x75 then
          match rest1 with
          | h1 :: h2 :: h3 :: h4 :: rest2 =>
            if (hexVal h1).isSome ∧ (hexVal h2).isSome ∧ (hexVal h3).isSome
                ∧ (hexVal h4).isSome then
              (scanStringLit rest2).map (fun r => (c :: e :: h1 :: h2 :: h3 :: h4 :: r.1, r.2))
            else none
          | _ => none
        else none
    else if c.val < 0x20 then none
    else (scanStringLit rest).map (fun r => (c :: r.1, r.2))

/-- Go `unquoteBytes` on the body of a string literal (the text between the quotes):
escapes are resolved, a `\u` surrogate pair becomes one rune, and everything is coerced
to well-formed UTF-8 (an invalid byte or a lone surrogate becomes U+FFFD).  Each step
consumes at least one byte, so fuel `s.length + 1` always suffices. -/
def unquoteFuel : Nat → GoString → Option GoString
  | 0, _ => none
  | _ + 1, [] => some []
  | fuel + 1, c :: rest =>
    if c.val = 0x5C then
      match rest with
      | [] => none
      | e :: rest1 =>
        if e.val = 0x22 ∨ e.val = 0x5C ∨ e.val = 0x2F ∨ e.val = 0x27 then
          (unquoteFuel fuel rest1).map (e :: ·)
        else if e.val = 0x62 then (unquoteFuel fuel rest1).map ((0x08 : Byte) :: ·)
        else if e.val = 0x66 then (unquoteFuel fuel rest1).map ((0x0C : Byte) :: ·)
        else if e.val = 0x6E then (unquoteFuel fuel rest1).map ((0x0A : Byte) :: ·)
        else if e.val = 0x72 then (unquoteFuel fuel rest1).map ((0x0D : Byte) :: ·)
        else if e.val = 0x74 then (unquoteFuel fuel rest1).map ((0x09 : Byte) :: ·)
        else if e.val = 0x75 then
          match getu4 (c :: rest) with
          | none => none
          | some rr =>
            if isSurrogate rr then
              let dec := utf16DecodeRune rr (getu4 (rest.drop 5))
              if dec ≠ RuneError then
                (unquoteFuel fuel (rest.drop 11)).map (encodeRune dec ++ ·)
              else (unquoteFuel fuel (rest.drop 5)).map (encodeRune RuneError ++ ·)
            else (unquoteFuel fuel (rest.drop 5)).map (encodeRune rr ++ ·)
        else none
    else if c.val = 0x22 ∨ c.val < 0x20 then none
    else if c.val < 0x80 then (unquoteFuel fuel rest).map (c :: ·)
    else
      let d := decodeRune (c :: rest)
      (unquoteFuel fuel ((c :: rest).drop d.2)).map (encodeRune d.1 ++ ·)

/-- Go `unquoteBytes` on a literal's body. -/
def unquote (body : GoString) : Option GoString := unquoteFuel (body.length + 1) body

/-- A string literal after its opening quote: the string it denotes and the input
after the closing quote. -/
def parseString (inp : GoString) : Option (GoString × GoString) :=
  match scanStringLit inp with
  | none => none
  | some (body, rest) => (unquote body).map (fun s => (s, rest))

/-- A JSON text as `encoding/json` reads it: member order and repeated keys of an
object are kept, the digits of a number are not (no number is ever stored by this
program). -/
inductive JSON where
  | null
  | bool (b : Bool)
  | number
  | string (s : GoString)
  | array (elems : List JSON)
  | object (members : List (GoString × JSON))

/-- JSON white space (`isSpace`): space, tab, carriage return, line feed. -/
def isSpace (c : Byte) : Bool :=
  decide (c.val = 0x20 ∨ c.val = 0x09 ∨ c.val = 0x0D ∨ c.val = 0x0A)

/-- Drops leading white space. -/
def skipSpace : GoString → GoString
  | [] => []
  | c :: rest => if isSpace c then skipSpace rest else c :: rest

/-- An ASCII decimal digit. -/
def isDigit (c : Byte) : Bool := decide (0x30 ≤ c.val ∧ c.val ≤ 0x39)

/-- Drops leading digits. -/
def skipDigits : GoString → GoString
  | [] => []
  | c :: rest => if isDigit c then skipDigits rest else c :: rest

/-- The scanner after `e` or `E` of a number: an optional sign and at least one digit. -/
def scanExp (inp : GoString) : Option GoString :=
  let inp1 :=
    match inp with
    | c :: r => if c.val = 0x2B ∨ c.val = 0x2D then r else inp
    | [] => []
  match inp1 with
  | d :: r => if isDigit d then some (skipDigits r) else none
  | [] => none

/-- The scanner after the integer part of a number: an optional fraction and an
optional exponent; returns the input after the number. -/
def scanFracExp (inp : GoString) : Option GoString :=
  match inp with
  | [] => some []
  | c :: r =>
    if c.val = 0x2E then
      match r with
      | d :: r1 =>
        if isDigit d then
          match skipDigits r1 with
          | [] => some []
          | e :: r2 => if e.val = 0x65 ∨ e.val = 0x45 then scanExp r2 else some (e :: r2)
        else none
      | [] => none
    else if c.val = 0x65 ∨ c.val = 0x45 then scanExp r
    else some (c :: r)

/-- The scanner on a number whose first byte is `c`: returns the input after it. -/
def scanNumber (c : Byte) (rest : GoString) : Option GoString :=
  if c.val = 0x2D then
    match rest with
    | d :: r =>
      if d.val = 0x30 then scanFracExp r
      else if 0x31 ≤ d.val ∧ d.val ≤ 0x39 then scanFracExp (skipDigits r)
      else none
    | [] => none
  else if c.val = 0x30 then scanFracExp rest
  else if 0x31 ≤ c.val ∧ c.val ≤ 0x39 then scanFracExp (skipDigits rest)
  else none

/-- Strips the literal `lit` from the front of `inp`. -/
def expectBytes : GoString → GoString → Option GoString
  | [], inp => some inp
  | _ :: _, [] => none
  | l :: lit, c :: inp => if l = c then expectBytes lit inp else none

/-- The scanner's nesting limit (`maxNestingDepth`, Go 1.15 and later). -/
def maxNestingDepth : Nat := 10000

mutual
/-- One JSON value at the front of `inp`, after optional white space: the value and the
input after it, `none` on a syntax error.  `depth` counts the arrays and objects
already open.  Every recursive call follows at least one consumed byte, so fuel
`inp.length + 1` always suffices. -/
def parseValue : Nat → Nat → GoString → Option (JSON × GoString)
  | 0, _, _ => none
  | fuel + 1, depth, inp =>
    match skipSpace inp with
    | [] => none
    | c :: rest =>
      if c.val = 0x22 then (parseString rest).map (fun r => (JSON.string r.1, r.2))
      else if c.val = 0x5B then
        if maxNestingDepth ≤ depth then none
        else
          match skipSpace rest with
          | [] => none
          | d :: rest1 =>
            if d.val = 0x5D then some (JSON.array [], rest1)
            else (parseElems fuel (depth + 1) (d :: rest1)).map
              (fun r => (JSON.array r.1, r.2))
      else if c.val = 0x7B then
        if maxNestingDepth ≤ depth then none
        else
          match skipSpace rest with
          | [] => none
          | d :: rest1 =>
            if d.val = 0x7D then some (JSON.object [], rest1)
            else (parseMembers fuel (depth + 1) (d :: rest1)).map
              (fun r => (JSON.object r.1, r.2))
      else if c.val = 0x6E then (expectBytes (ascii "ull") rest).map (fun r => (JSON.null, r))
      else if c.val = 0x74 then
        (expectBytes (ascii "rue") rest).map (fun r => (JSON.bool true, r))
      else if c.val = 0x66 then
        (expectBytes (ascii "alse") rest).map (fun r => (JSON.bool false, r))
      else (scanNumber c rest).map (fun r => (JSON.number, r))
/-- The elements of an array from the first element on, up to and including the
closing bracket. -/
def parseElems : Nat → Nat → GoString → Option (List JSON × GoString)
  | 0, _, _ => none
  | fuel + 1, depth, inp =>
    match parseValue fuel depth inp with
    | none => none
    | some (v, rest) =>
      match skipSpace rest with
      | [] => none
      | c :: rest1 =>
        if c.val = 0x2C then
          (parseElems fuel depth rest1).map (fun r => (v :: r.1, r.2))
        else if c.val = 0x5D then some ([v], rest1)
        else none
/-- The members of an object from the first key on, up to and including the closing
brace. -/
def parseMembers : Nat → Nat → GoString → Option (List (GoString × JSON) × GoString)
  | 0, _, _ => none
  | fuel + 1, depth, inp =>
    match skipSpace inp with
    | [] => none
    | q :: rest =>
      if q.val = 0x22 then
        match parseString rest with
        | none => none
        | some (key, rest1) =>
          match skipSpace rest1 with
          | [] => none
          | c :: rest2 =>
            if c.val = 0x3A then
              match parseValue fuel depth rest2 with
              | none => none
              | some (v, rest3) =>
                match skipSpace rest3 with
                | [] => none
                | e :: rest4 =>
                  if e.val = 0x2C then
                    (parseMembers fuel depth rest4).map (fun r => ((key, v) :: r.1, r.2))
                  else if e.val = 0x7D then some ([(key, v)], rest4)
                  else none
            else none
      else none
end

/-- The syntax check and reading of a whole JSON text (`checkValid`): one value, with
white space allowed around it and nothing else after it. -/
def parseJSON (data : GoString) : Option JSON :=
  match parseValue (data.length + 1) 0 data with
  | none => none
  | some (v, rest) =>
    match skipSpace rest with
    | [] => some v
    | _ :: _ => none

/-! ## The program's types -/

/-- The struct `update` of `main.go`: `Action` is `"add"` or `"del"`, `Data` the keys
(and values) it applies to. -/
structure update where
  Action : GoString
  Data : GoMap
deriving DecidableEq

/-- The struct `broadcast` of `main.go`; `notify` is the identity of the channel, `none`
for the nil channel. -/
structure broadcast where
  msg : GoString
  notify : Option Nat
deriving DecidableEq

/-! ## `json.Unmarshal` at the types `[]*update` and `map[string]string`

`json.Unmarshal` checks the syntax of the whole input first and stores nothing when it
is invalid.  It then stores the value; a JSON value of the wrong kind for its target
is skipped and reported as the call's error after decoding.  The program discards the
destination whenever the error is non-nil, so every decoder below returns `none` for
"`err != nil`" and the decoded value otherwise. -/

/-- ASCII lower case of a byte. -/
def lowerASCII (c : Byte) : Byte :=
  if 0x41 ≤ c.val ∧ c.val ≤ 0x5A then Fin.ofNat (c.val + 0x20) else c

/-- Case-insensitive match of an object key against a struct field name.  For the two
field names of `update`, whose letters have no non-ASCII case variants, the simple
case folding of `encoding/json` is ASCII case-insensitivity. -/
def equalFold (name key : GoString) : Bool := name.map lowerASCII = key.map lowerASCII

/-- A JSON value stored into a `string` currently holding `cur`: a JSON string replaces
it, `null` leaves it, anything else is an error. -/
def decodeStringInto (cur : GoString) : JSON → Option GoString
  | JSON.string s => some s
  | JSON.null => some cur
  | _ => none

/-- The members of a JSON object stored into a `map[string]string` holding `cur`, in
order: each key is set to its value, decoded into a fresh `""`. -/
def decodeMembersInto (cur : GoMap) : List (GoString × JSON) → Option GoMap
  | [] => some cur
  | (k, v) :: rest =>
    match decodeStringInto [] v with
    | none => none
    | some s => decodeMembersInto (cur.set k s) rest

/-- A JSON value stored into a `map[string]string` holding `cur`: an object adds its
members to the map, `null` sets the map to nil, anything else is an error. -/
def decodeMapInto (cur : GoMap) : JSON → Option GoMap
  | JSON.object members => decodeMembersInto cur members
  | JSON.null => some GoMap.empty
  | _ => none

/-- One member of a JSON object stored into an `update`: the key selects the field
`Action` or `Data` (exactly or ignoring case); a key that matches neither is skipped. -/
def decodeField (u : update) (kv : GoString × JSON) : Option update :=
  if equalFold (ascii "Action") kv.1 then
    (decodeStringInto u.Action kv.2).map (fun a => { u with Action := a })
  else if equalFold (ascii "Data") kv.1 then
    (decodeMapInto u.Data kv.2).map (fun d => { u with Data := d })
  else some u

/-- The members of a JSON object stored into an `update`, in order. -/
def decodeStruct (u : update) : List (GoString × JSON) → Option update
  | [] => some u
  | kv :: rest =>
    match decodeField u kv with
    | none => none
    | some u1 => decodeStruct u1 rest

/-- A JSON value stored into a fresh `*update`: `null` leaves the pointer nil (`none`),
an object allocates a zero `update` and fills it, anything else is an error. -/
def decodeElem : JSON → Option (Option update)
  | JSON.null => some none
  | JSON.object members => (decodeStruct ⟨[], GoMap.empty⟩ members).map some
  | _ => none

/-- The elements of a JSON array stored into a `[]*update`. -/
def decodeElems : List JSON → Option (List (Option update))
  | [] => some []
  | v :: rest =>
    match decodeElem v with
    | none => none
    | some e => (decodeElems rest).map (e :: ·)

/-- A JSON value stored into a nil `[]*update`: an array, or `null` (the slice stays
nil); anything else is an error. -/
def decodeUpdates : JSON → Option (List (Option update))
  | JSON.array elems => decodeElems elems
  | JSON.null => some []
  | _ => none

/-- The call `json.Unmarshal(data, &updates)` with `var updates []*update`: `none` when it
returns an error, the slice otherwise; a nil pointer in the slice is `none`. -/
def jsonUnmarshalUpdates (data : GoString) : Option (List (Option update)) :=
  (parseJSON data).bind decodeUpdates

/-- The call `json.Unmarshal(buf, &m)` with `var m map[string]string`: `none` when it
returns an error, the map otherwise. -/
def jsonUnmarshalMap (data : GoString) : Option GoMap :=
  (parseJSON data).bind (decodeMapInto GoMap.empty)

/-! ## `json.Marshal` at the types `[]*update` and `map[string]string` -/

/-- The digit of `n < 16` in `"0123456789abcdef"`. -/
def hexDigit (n : Nat) : Byte := Fin.ofNat (if n < 10 then 0x30 + n else 0x61 + (n - 10))

/-- The table `htmlSafeSet`: the ASCII bytes written as they are, which is all from
space on except `"`, `&`, `<`, `>` and `\`. -/
def htmlSafe (b : Byte) : Bool :=
  decide (0x20 ≤ b.val ∧ b.val < 0x80 ∧ b.val ≠ 0x22 ∧ b.val ≠ 0x26 ∧ b.val ≠ 0x3C
    ∧ b.val ≠ 0x3E ∧ b.val ≠ 0x5C)

/-- The body of the JSON string literal that `json.Marshal` writes for `s` (HTML escaping
on): `"` and `\` are escaped, control characters and `<`, `>`, `&` are written as
escapes, an invalid UTF-8 byte is written as `\ufffd`, U+2028 and U+2029 are written as
escapes, everything else is copied.  Each step consumes at least one byte, so fuel
`s.length` always suffices. -/
def appendStringFuel : Nat → GoString → GoString
  | _, [] => []
  | 0, _ :: _ => []
  | fuel + 1, b :: rest =>
    if b.val < 0x80 then
      (if htmlSafe b then [b]
       else if b.val = 0x5C ∨ b.val = 0x22 then [0x5C, b]
       else if b.val = 0x08 then [0x5C, 0x62]
       else if b.val = 0x0C then [0x5C, 0x66]
       else if b.val = 0x0A then [0x5C, 0x6E]
       else if b.val = 0x0D then [0x5C, 0x72]
       else if b.val = 0x09 then [0x5C, 0x74]
       else [0x5C, 0x75, 0x30, 0x30, hexDigit (b.val / 16), hexDigit (b.val % 16)])
        ++ appendStringFuel fuel rest
    else
      let d := decodeRune (b :: rest)
      if d.1 = RuneError ∧ d.2 = 1 then
        [0x5C, 0x75, 0x66, 0x66, 0x66, 0x64] ++ appendStringFuel fuel rest
      else if d.1 = 0x2028 ∨ d.1 = 0x2029 then
        [0x5C, 0x75, 0x32, 0x30, 0x32, hexDigit (d.1 % 16)]
          ++ appendStringFuel fuel ((b :: rest).drop d.2)
      else (b :: rest).take d.2 ++ appendStringFuel fuel ((b :: rest).drop d.2)

/-- The JSON string literal `json.Marshal` writes for the Go string `s`. -/
def encodeString (s : GoString) : GoString :=
  0x22 :: (appendStringFuel s.length s ++ [0x22])

/-- The members of an object, one `"key":"value"` per entry, separated by commas. -/
def encodeEntries : List Entry → GoString
  | [] => []
  | [e] => encodeString e.1 ++ 0x3A :: encodeString e.2
  | e :: e1 :: rest =>
    encodeString e.1 ++ 0x3A :: encodeString e.2 ++ 0x2C :: encodeEntries (e1 :: rest)

/-- The call `json.Marshal(m)` for a non-nil `map[string]string`: an object with the
entries in ascending key order.  (The call cannot fail at this type.) -/
def jsonMarshalMap (m : GoMap) : GoString :=
  0x7B :: (encodeEntries m.entries ++ [0x7D])

/-- The JSON object `json.Marshal` writes for a non-nil `*update` with a non-nil `Data`. -/
def encodeUpdate (u : update) : GoString :=
  ascii "\x7b\"Action\":" ++ encodeString u.Action ++ ascii ",\"Data\":" ++ jsonMarshalMap u.Data
    ++ ascii "\x7d"

/-- The elements of an array of updates, separated by commas. -/
def encodeUpdates : List update → GoString
  | [] => []
  | [u] => encodeUpdate u
  | u :: u1 :: rest => encodeUpdate u ++ 0x2C :: encodeUpdates (u1 :: rest)

/-- The call `json.Marshal(us)` for a `[]*update` of non-nil pointers.  (The call cannot
fail at this type, so the handlers never take their `err != nil` branch.) -/
def jsonMarshalUpdates (us : List update) : GoString :=
  0x5B :: (encodeUpdates us ++ [0x5D])

/-! ## `main.go` -/

/-- The method `(*broadcast).Invalidates`. -/
def Invalidates (_b _other : broadcast) : Bool := false

/-- The method `(*broadcast).Message`. -/
def Message (b : broadcast) : GoString := b.msg

/-- The call `broadcasts.QueueBroadcast(b)` of memberlist's `TransmitLimitedQueue`, on the
broadcasts still pending (oldest first): every pending broadcast that `b` invalidates is
removed, then `b` is added.  (The queue is the library's, seen here only through what it
asks of `Invalidates`; the broadcasts of this program are neither named nor unique.) -/
def QueueBroadcast (pending : List broadcast) (b : broadcast) : List broadcast :=
  pending.filter (fun old => !Invalidates b old) ++ [b]

/-- How a call on the store ends: it returns, or it panics part-way (a nil pointer
dereference); `items` is the global mapping at that moment. -/
inductive Outcome where
  | returned (items : GoMap)
  | panicked (items : GoMap)
deriving DecidableEq

/-- The body of the inner loop of `NotifyMsg` for one key of `u.Data`: the `switch` on
`u.Action`. -/
def applyEntry (action : GoString) (items : GoMap) (e : Entry) : GoMap :=
  if action = ascii "add" then items.set e.1 e.2
  else if action = ascii "del" then items.delete e.1
  else items

/-- The inner loop of `NotifyMsg`, `for k, v := range u.Data`.  Go visits the keys in an
unspecified order; they are visited here in key order, and `applyData_visit_order`
shows that the order makes no difference. -/
def applyData (items : GoMap) (u : update) : GoMap :=
  u.Data.entries.foldl (applyEntry u.Action) items

/-- The outer loop of `NotifyMsg`, `for _, u := range updates`: a nil `u` makes `u.Data`
panic, with the updates before it already applied. -/
def applyUpdates (items : GoMap) : List (Option update) → Outcome
  | [] => Outcome.returned items
  | none :: _ => Outcome.panicked items
  | some u :: rest => applyUpdates (applyData items u) rest

/-- The method `(*delegate).NotifyMsg` on the global `items`. -/
def NotifyMsg (items : GoMap) (b : GoString) : Outcome :=
  match b with
  | [] => Outcome.returned items
  | tag :: payload =>
    if tag.val = 0x64 then
      match jsonUnmarshalUpdates payload with
      | none => Outcome.returned items
      | some updates => applyUpdates items updates
    else Outcome.returned items

/-- The method `(*delegate).LocalState`: the whole mapping as JSON. -/
def LocalState (items : GoMap) (_join : Bool) : GoString := jsonMarshalMap items

/-- The loop of `MergeRemoteState`, `for k, v := range m { items[k] = v }`, visiting the
keys in key order (`mergeEntries_visit_order`: any other order gives the same). -/
def mergeEntries (items : GoMap) (m : GoMap) : GoMap :=
  m.entries.foldl (fun acc e => acc.set e.1 e.2) items

/-- The method `(*delegate).MergeRemoteState` on the global `items`. -/
def MergeRemoteState (items : GoMap) (buf : GoString) (join : Bool) : GoMap :=
  if buf.length = 0 then items
  else if !join then items
  else
    match jsonUnmarshalMap buf with
    | none => items
    | some m => mergeEntries items m

/-- The handler `addHandler` for the form values `key` and `val` (any byte strings): the
mapping afterwards and the broadcast handed to `broadcasts.QueueBroadcast`.  The queue
is taken to exist, that is, `start` has returned nil. -/
def addHandler (items : GoMap) (key val : GoString) : GoMap × broadcast :=
  (items.set key val,
   { msg := ascii "d" ++ jsonMarshalUpdates [⟨ascii "add", GoMap.empty.set key val⟩],
     notify := none })

/-- The handler `delHandler` for the form value `key`: the mapping afterwards and the
broadcast handed to `broadcasts.QueueBroadcast`. -/
def delHandler (items : GoMap) (key : GoString) : GoMap × broadcast :=
  (items.delete key,
   { msg := ascii "d" ++ jsonMarshalUpdates [⟨ascii "del", GoMap.empty.set key []⟩],
     notify := none })

/-- The handler `getHandler`: the bytes written for `key`, `items[key]`, which is the
empty string when the key is absent. -/
def getHandler (items : GoMap) (key : GoString) : GoString := (items.get key).getD []

/-- Go `strings.Split(s, ",")` on the bytes after the ones collected in `cur`. -/
def splitComma (cur : GoString) : GoString → List GoString
  | [] => [cur.reverse]
  | c :: rest =>
    if c.val = 0x2C then cur.reverse :: splitComma [] rest else splitComma (c :: cur) rest

/-- The function `start`.  `members` is the flag `*members`; `createErr` is the error of
`memberlist.Create(c)` (`none` for nil) and `joinErr parts` the error of `m.Join(parts)`.
The result is the error `start` returns, `none` for nil. -/
def start (members : GoString) (createErr : Option GoString)
    (joinErr : List GoString → Option GoString) : Option GoString :=
  match createErr with
  | some err => some err
  | none =>
    if members.length > 0 then
      match joinErr (splitComma [] members) with
      | some err => some err
      | none => none
    else none

/-! ## Deliveries in sequence, and the reference of the specification -/

/-- Successive deliveries: memberlist calls `NotifyMsg` once per received message, in
arrival order; a panic ends the process. -/
def deliver (items : GoMap) : List GoString → Outcome
  | [] => Outcome.returned items
  | b :: rest =>
    match NotifyMsg items b with
    | Outcome.returned items1 => deliver items1 rest
    | Outcome.panicked items1 => Outcome.panicked items1

/-- Whether update `u` touches key `k`: `k` is a key of `u.Data`. -/
def touches (k : GoString) (u : update) : Bool := (u.Data.get k).isSome

/-- What one update does to the presence and value of a single key `k`, given what was
stored under `k` before: the per-key state machine of the store. -/
def stepKey (u : update) (k : GoString) (before : Option GoString) : Option GoString :=
  if u.Action = ascii "add" then
    match u.Data.get k with
    | some v => some v
    | none => before
  else if u.Action = ascii "del" then
    match u.Data.get k with
    | some _ => none
    | none => before
  else before

/-- The reference `applyUpdate(update)` of the specification (§4.4): for `add`, sets each
key in `update.data` to its value; for `del`, removes each key in `update.data`; any
other action is ignored. -/
def applyUpdate (u : update) (s : GoMap) : GoMap :=
  if u.Action = ascii "add" then u.Data.entries.foldl (fun acc e => acc.set e.1 e.2) s
  else if u.Action = ascii "del" then u.Data.entries.foldl (fun acc e => acc.delete e.1) s
  else s

/-! ## Predicates and sample values used in the statements -/

/-- The mapping `{"x": "1"}`. -/
def exX1 : GoMap := GoMap.empty.set (ascii "x") (ascii "1")

/-- The mapping `{"x": "2"}`. -/
def exX2 : GoMap := GoMap.empty.set (ascii "x") (ascii "2")

/-- The mapping `{"y": "7"}`. -/
def exY7 : GoMap := GoMap.empty.set (ascii "y") (ascii "7")

/-- The gossip payload (after the tag) of one `add` of `x = 1`. -/
def exAddX1 : GoString := ascii "[\x7b\"Action\":\"add\",\"Data\":\x7b\"x\":\"1\"\x7d\x7d]"

/-- The gossip payload (after the tag) of one `add` of `x = 2`. -/
def exAddX2 : GoString := ascii "[\x7b\"Action\":\"add\",\"Data\":\x7b\"x\":\"2\"\x7d\x7d]"

/-- The gossip payload (after the tag) of one `del` of `x`. -/
def exDelX : GoString := ascii "[\x7b\"Action\":\"del\",\"Data\":\x7b\"x\":\"\"\x7d\x7d]"

/-- A message that carries the Updates `us`: the tag `d`, then a payload that
`json.Unmarshal` decodes to `us` (no nil pointer among them). -/
def carries (msg : GoString) (us : List update) : Prop :=
  ∃ payload, msg = 0x64 :: payload ∧ jsonUnmarshalUpdates payload = some (us.map some)

/-- The gossip message `d[{"Action":"add","Data":{"y":"7"}}]`. -/
def exMsgAddY7 : GoString := ascii "d[\x7b\"Action\":\"add\",\"Data\":\x7b\"y\":\"7\"\x7d\x7d]"

/-- A rune's encoding found at the front of `p`: `chunk` is the bytes of one validly
encoded non-ASCII rune. -/
structure RuneAt (p : GoString) (chunk tail : GoString) : Prop where
  split : p = chunk ++ tail
  len : chunk.length = (decodeRune p).2
  two : 2 ≤ chunk.length
  high : ∀ c ∈ chunk, 0x80 ≤ c.val
  enc : encodeRune (decodeRune p).1 = chunk
  stable : ∀ t, decodeRune (chunk ++ t) = decodeRune p

/-- Every key and value of the entries is valid UTF-8. -/
def utf8Entries (l : List Entry) : Prop :=
  ∀ e ∈ l, validUTF8 e.1 = true ∧ validUTF8 e.2 = true

/-- Every key and value stored in the map is valid UTF-8. -/
def GoMap.utf8 (m : GoMap) : Prop := utf8Entries m.entries

instance (l : List Entry) : Decidable (utf8Entries l) := by
  unfold utf8Entries; infer_instance

instance (m : GoMap) : Decidable m.utf8 := by
  unfold GoMap.utf8; infer_instance

/-- Every string of a JSON value, object keys included, is valid UTF-8. -/
inductive utf8JSON : JSON → Prop where
  | null : utf8JSON JSON.null
  | bool (b : Bool) : utf8JSON (JSON.bool b)
  | number : utf8JSON JSON.number
  | string {s : GoString} (h : validUTF8 s = true) : utf8JSON (JSON.string s)
  | array {elems : List JSON} (h : ∀ v ∈ elems, utf8JSON v) : utf8JSON (JSON.array elems)
  | object {members : List (GoString × JSON)}
      (hk : ∀ kv ∈ members, validUTF8 kv.1 = true) (hv : ∀ kv ∈ members, utf8JSON kv.2) :
      utf8JSON (JSON.object members)

/-- The mapping an outcome leaves. -/
def Outcome.items : Outcome → GoMap
  | Outcome.returned items => items
  | Outcome.panicked items => items

/-- Both fields of the update are valid UTF-8. -/
def update.utf8 (u : update) : Prop := validUTF8 u.Action = true ∧ u.Data.utf8

/-! ## Facts about maps -/

theorem lookupEntry_insertEntry_self (k v : GoString) (l : List Entry) :
    lookupEntry k (insertEntry k v l) = some v := by
  induction l with
  | nil => simp [insertEntry, lookupEntry]
  | cons hd tl ih =>
    obtain ⟨k1, v1⟩ := hd
    simp only [insertEntry]
    split_ifs with h1 h2
    · simp [lookupEntry]
    · simp [lookupEntry]
    · simp [lookupEntry, h2, ih]

theorem lookupEntry_insertEntry_ne {k k1 : GoString} (v : GoString) (l : List Entry)
    (h : k1 ≠ k) : lookupEntry k1 (insertEntry k v l) = lookupEntry k1 l := by
  induction l with
  | nil => simp [insertEntry, lookupEntry, h]
  | cons hd tl ih =>
    obtain ⟨k2, v2⟩ := hd
    simp only [insertEntry]
    split_ifs with h1 h2
    · simp [lookupEntry, h]
    · subst h2; simp [lookupEntry, h]
    · simp only [lookupEntry, ih]

theorem lookupEntry_eq_none_of_lt {k : GoString} {l : List Entry}
    (h : ∀ e ∈ l, strLess k e.1 = true) : lookupEntry k l = none := by
  induction l with
  | nil => rfl
  | cons hd tl ih =>
    obtain ⟨k1, v1⟩ := hd
    have hne : k ≠ k1 := strLess_ne (h (k1, v1) (List.mem_cons_self _ _))
    simp only [lookupEntry, hne, if_false]
    exact ih (fun e he => h e (List.mem_cons_of_mem _ he))

theorem lookupEntry_eraseEntry_self (k : GoString) {l : List Entry}
    (h : keysAscending l) : lookupEntry k (eraseEntry k l) = none := by
  induction l with
  | nil => rfl
  | cons hd tl ih =>
    obtain ⟨k1, v1⟩ := hd
    obtain ⟨hhd, htl⟩ := keysAscending_cons.1 h
    simp only [eraseEntry]
    split_ifs with h1
    · subst h1; exact lookupEntry_eq_none_of_lt hhd
    · simp only [lookupEntry, h1, if_false]; exact ih htl

theorem lookupEntry_eraseEntry_ne {k k1 : GoString} (l : List Entry) (h : k1 ≠ k) :
    lookupEntry k1 (eraseEntry k l) = lookupEntry k1 l := by
  induction l with
  | nil => rfl
  | cons hd tl ih =>
    obtain ⟨k2, v2⟩ := hd
    simp only [eraseEntry]
    split_ifs with h1
    · subst h1; simp [lookupEntry, h]
    · simp only [lookupEntry, ih]

theorem lookupEntry_some_mem {k v : GoString} {l : List Entry}
    (h : lookupEntry k l = some v) : (k, v) ∈ l := by
  induction l with
  | nil => simp [lookupEntry] at h
  | cons hd tl ih =>
    obtain ⟨k1, v1⟩ := hd
    simp only [lookupEntry] at h
    split_ifs at h with h1
    · subst h1
      simp only [Option.some.injEq] at h
      subst h
      exact List.mem_cons_self _ _
    · exact List.mem_cons_of_mem _ (ih h)

theorem entries_eq_of_lookup_eq {l1 l2 : List Entry} (h1 : keysAscending l1)
    (h2 : keysAscending l2) (h : ∀ k, lookupEntry k l1 = lookupEntry k l2) : l1 = l2 := by
  induction l1 generalizing l2 with
  | nil =>
    cases l2 with
    | nil => rfl
    | cons hd tl =>
      obtain ⟨k2, v2⟩ := hd
      have := h k2
      simp [lookupEntry] at this
  | cons hd tl ih =>
    obtain ⟨k1, v1⟩ := hd
    cases l2 with
    | nil =>
      have := h k1
      simp [lookupEntry] at this
    | cons hd2 tl2 =>
      obtain ⟨k2, v2⟩ := hd2
      obtain ⟨hhd1, htl1⟩ := keysAscending_cons.1 h1
      obtain ⟨hhd2, htl2⟩ := keysAscending_cons.1 h2
      have hk : k1 = k2 := by
        by_contra hne
        have a1 := h k1
        have a2 := h k2
        have hne2 : k2 ≠ k1 := fun e => hne e.symm
        simp only [lookupEntry, if_true, hne, hne2, if_false] at a1 a2
        have m1 := hhd2 _ (lookupEntry_some_mem a1.symm)
        have m2 := hhd1 _ (lookupEntry_some_mem a2)
        have := strLess_asymm m1
        simp only at m2 this
        rw [m2] at this
        exact Bool.noConfusion this
      subst hk
      have hv : v1 = v2 := by
        have := h k1
        simpa [lookupEntry] using this
      subst hv
      have htl : tl = tl2 := by
        apply ih htl1 htl2
        intro k
        by_cases hk : k = k1
        · subst hk
          rw [lookupEntry_eq_none_of_lt hhd1, lookupEntry_eq_none_of_lt hhd2]
        · have := h k
          simpa [lookupEntry, hk] using this
      rw [htl]

namespace GoMap

theorem ext {m1 m2 : GoMap} (h : ∀ k, m1.get k = m2.get k) : m1 = m2 := by
  obtain ⟨l1, h1⟩ := m1
  obtain ⟨l2, h2⟩ := m2
  have : l1 = l2 := entries_eq_of_lookup_eq h1 h2 h
  subst this
  rfl

theorem get_empty (k : GoString) : GoMap.empty.get k = none := rfl

theorem get_set_self (m : GoMap) (k v : GoString) : (m.set k v).get k = some v :=
  lookupEntry_insertEntry_self k v m.entries

theorem get_set_ne (m : GoMap) {k k1 : GoString} (v : GoString) (h : k1 ≠ k) :
    (m.set k v).get k1 = m.get k1 :=
  lookupEntry_insertEntry_ne v m.entries h

theorem get_delete_self (m : GoMap) (k : GoString) : (m.delete k).get k = none :=
  lookupEntry_eraseEntry_self k m.ascending

theorem get_delete_ne (m : GoMap) {k k1 : GoString} (h : k1 ≠ k) :
    (m.delete k).get k1 = m.get k1 :=
  lookupEntry_eraseEntry_ne m.entries h

theorem get_set (m : GoMap) (k v k1 : GoString) :
    (m.set k v).get k1 = if k1 = k then some v else m.get k1 := by
  split_ifs with h
  · subst h; exact get_set_self m k1 v
  · exact get_set_ne m v h

theorem get_delete (m : GoMap) (k k1 : GoString) :
    (m.delete k).get k1 = if k1 = k then none else m.get k1 := by
  split_ifs with h
  · subst h; exact get_delete_self m k1
  · exact get_delete_ne m h

end GoMap

/-! ## The loops of `NotifyMsg` and `MergeRemoteState`, key by key -/

theorem get_foldl_applyEntry (action : GoString) (k : GoString) (l : List Entry)
    (hl : keysAscending l) (s : GoMap) :
    (l.foldl (applyEntry action) s).get k =
      if action = ascii "add" then
        match lookupEntry k l with
        | some v => some v
        | none => s.get k
      else if action = ascii "del" then
        match lookupEntry k l with
        | some _ => none
        | none => s.get k
      else s.get k := by
  induction l generalizing s with
  | nil => simp [lookupEntry]
  | cons hd tl ih =>
    obtain ⟨k1, v1⟩ := hd
    obtain ⟨hhd, htl⟩ := keysAscending_cons.1 hl
    rw [List.foldl_cons, ih htl]
    by_cases hk : k = k1
    · subst hk
      have hnone : lookupEntry k tl = none := lookupEntry_eq_none_of_lt hhd
      simp only [hnone, lookupEntry, if_true, applyEntry]
      split_ifs with h1 h2
      · exact GoMap.get_set_self _ _ _
      · exact GoMap.get_delete_self _ _
      · rfl
    · simp only [lookupEntry, hk, if_false, applyEntry]
      split_ifs with h1 h2
      · rw [GoMap.get_set_ne _ _ hk]
      · rw [GoMap.get_delete_ne _ hk]
      · rfl

theorem get_applyData (s : GoMap) (u : update) (k : GoString) :
    (applyData s u).get k = stepKey u k (s.get k) := by
  unfold applyData stepKey
  rw [get_foldl_applyEntry _ _ _ u.Data.ascending]
  rfl

theorem get_foldl_set (k : GoString) (l : List Entry) (hl : keysAscending l) (s : GoMap) :
    (l.foldl (fun acc e => acc.set e.1 e.2) s).get k =
      match lookupEntry k l with
      | some v => some v
      | none => s.get k := by
  induction l generalizing s with
  | nil => simp [lookupEntry]
  | cons hd tl ih =>
    obtain ⟨k1, v1⟩ := hd
    obtain ⟨hhd, htl⟩ := keysAscending_cons.1 hl
    rw [List.foldl_cons, ih htl]
    by_cases hk : k = k1
    · subst hk
      have hnone : lookupEntry k tl = none := lookupEntry_eq_none_of_lt hhd
      simp only [hnone, lookupEntry, if_true]
      exact GoMap.get_set_self _ _ _
    · simp only [lookupEntry, hk, if_false]
      cases lookupEntry k tl with
      | none => exact GoMap.get_set_ne _ _ hk
      | some v => rfl

theorem get_mergeEntries (s m : GoMap) (k : GoString) :
    (mergeEntries s m).get k =
      match m.get k with
      | some v => some v
      | none => s.get k :=
  get_foldl_set k m.entries m.ascending s

/-! ## `NotifyMsg` on a decoded message -/

theorem NotifyMsg_data {payload : GoString} {us : List (Option update)} (s : GoMap)
    (h : jsonUnmarshalUpdates payload = some us) :
    NotifyMsg s (0x64 :: payload) = applyUpdates s us := by
  have htag : ((0x64 : Byte).val = 0x64) := by decide
  simp only [NotifyMsg, if_pos htag, h]

theorem applyUpdates_some (s : GoMap) (us : List update) :
    applyUpdates s (us.map some) = Outcome.returned (us.foldl applyData s) := by
  induction us generalizing s with
  | nil => rfl
  | cons u rest ih => simp only [List.map_cons, applyUpdates, List.foldl_cons, ih]

theorem applyData_eq_applyUpdate (s : GoMap) (u : update) :
    applyData s u = applyUpdate u s := by
  apply GoMap.ext
  intro k
  rw [get_applyData]
  unfold applyUpdate stepKey
  split_ifs with h1 h2
  · rw [get_foldl_set k _ u.Data.ascending]; rfl
  · have := get_foldl_applyEntry (ascii "del") k _ u.Data.ascending s
    have hne : ascii "del" ≠ ascii "add" := by decide
    simp only [hne, if_false, if_true] at this
    have hfold : u.Data.entries.foldl (applyEntry (ascii "del")) s
        = u.Data.entries.foldl (fun acc e => acc.delete e.1) s := by
      congr 1
    rw [← hfold, this]
    rfl
  · rfl

/-- C1. A single Update `u` delivered as a data gossip message (tag `d`, then a payload
that `json.Unmarshal` decodes to the one-element slice holding `u`): `NotifyMsg` returns
and the mapping is the reference `applyUpdate u s`.  For `add` every key of `u.Data`
maps to its value there; for `del` every key of `u.Data` is absent, whatever value it
carries; for any other action the mapping is exactly `s`; and always a key that is not
in `u.Data` keeps the presence and value it had in `s`. -/
theorem NotifyMsg_single_update (s : GoMap) (payload : GoString) (u : update)
    (hdec : jsonUnmarshalUpdates payload = some [some u]) :
    NotifyMsg s (0x64 :: payload) = Outcome.returned (applyUpdate u s) ∧
      (u.Action = ascii "add" →
        ∀ k v, u.Data.get k = some v → (applyUpdate u s).get k = some v) ∧
      (u.Action = ascii "del" →
        ∀ k v, u.Data.get k = some v → (applyUpdate u s).get k = none) ∧
      (u.Action ≠ ascii "add" → u.Action ≠ ascii "del" → applyUpdate u s = s) ∧
      (∀ k, u.Data.get k = none → (applyUpdate u s).get k = s.get k) := by
  have hget : ∀ k, (applyUpdate u s).get k = stepKey u k (s.get k) := by
    intro k
    rw [← applyData_eq_applyUpdate, get_applyData]
  refine ⟨?_, ?_, ?_, ?_, ?_⟩
  · rw [NotifyMsg_data s hdec]
    have := applyUpdates_some s [u]
    simp only [List.map_cons, List.map_nil, List.foldl_cons, List.foldl_nil] at this
    rw [this, applyData_eq_applyUpdate]
  · intro ha k v hk
    rw [hget, stepKey, if_pos ha, hk]
  · intro hd k v hk
    have hne : u.Action ≠ ascii "add" := by
      rw [hd]; decide
    rw [hget, stepKey, if_neg hne, if_pos hd, hk]
  · intro h1 h2
    simp [applyUpdate, h1, h2]
  · intro k hk
    rw [hget, stepKey, hk]
    split_ifs <;> rfl

/-- Witness for C1: the message `d[{"Action":"add","Data":{"x":"1"}}]` delivered to a node
holding `{"y": "7"}`. -/
theorem NotifyMsg_single_update_witness :
    jsonUnmarshalUpdates exAddX1 = some [some ⟨ascii "add", exX1⟩] ∧
    NotifyMsg exY7 (0x64 :: exAddX1)
      = Outcome.returned (applyUpdate ⟨ascii "add", exX1⟩ exY7) ∧
    (applyUpdate ⟨ascii "add", exX1⟩ exY7).get (ascii "x") = some (ascii "1") ∧
    (applyUpdate ⟨ascii "add", exX1⟩ exY7).get (ascii "y") = some (ascii "7") := by
  have h := NotifyMsg_single_update exY7 exAddX1 ⟨ascii "add", exX1⟩ (by decide)
  exact ⟨by decide, h.1, h.2.1 rfl _ _ (by decide), by decide⟩

theorem NotifyMsg_updates (s : GoMap) {payload : GoString} (us : List update)
    (h : jsonUnmarshalUpdates payload = some (us.map some)) :
    NotifyMsg s (0x64 :: payload) = Outcome.returned (us.foldl applyData s) := by
  rw [NotifyMsg_data s h, applyUpdates_some]

/-- C2. Last-write-wins.  `U1` and `U2` are `add` Updates that both contain `k`, with
values `v1` and `v2`.  Whether they arrive in one message in that order or in two
successive messages, `NotifyMsg` returns and the value stored for `k` is `v2`, whatever
the mapping `s` was before and whatever `v1` is. -/
theorem NotifyMsg_last_write_wins (s : GoMap) (k v1 v2 : GoString) (U1 U2 : update)
    (p12 p1 p2 : GoString)
    (hadd1 : U1.Action = ascii "add") (hadd2 : U2.Action = ascii "add")
    (hk1 : U1.Data.get k = some v1) (hk2 : U2.Data.get k = some v2)
    (h12 : jsonUnmarshalUpdates p12 = some [some U1, some U2])
    (h1 : jsonUnmarshalUpdates p1 = some [some U1])
    (h2 : jsonUnmarshalUpdates p2 = some [some U2]) :
    (∃ t, NotifyMsg s (0x64 :: p12) = Outcome.returned t ∧ t.get k = some v2) ∧
    (∃ t1 t2, NotifyMsg s (0x64 :: p1) = Outcome.returned t1 ∧
      NotifyMsg t1 (0x64 :: p2) = Outcome.returned t2 ∧
      t1.get k = some v1 ∧ t2.get k = some v2) := by
  have e1 : ∀ t : GoMap, (applyData t U1).get k = some v1 := by
    intro t
    rw [get_applyData, stepKey, if_pos hadd1, hk1]
  have e2 : ∀ t : GoMap, (applyData t U2).get k = some v2 := by
    intro t
    rw [get_applyData, stepKey, if_pos hadd2, hk2]
  refine ⟨⟨_, NotifyMsg_updates s [U1, U2] h12, ?_⟩,
    ⟨_, _, NotifyMsg_updates s [U1] h1, NotifyMsg_updates _ [U2] h2, ?_, ?_⟩⟩
  · exact e2 _
  · exact e1 _
  · exact e2 _

/-- Witness for C2: `add x = 1` then `add x = 2`, in one message and in two, on a node
holding `{"y": "7"}`. -/
theorem NotifyMsg_last_write_wins_witness :
    (∃ t, NotifyMsg exY7 (0x64 :: ascii
        "[\x7b\"Action\":\"add\",\"Data\":\x7b\"x\":\"1\"\x7d\x7d,\x7b\"Action\":\"add\",\"Data\":\x7b\"x\":\"2\"\x7d\x7d]")
        = Outcome.returned t ∧ t.get (ascii "x") = some (ascii "2")) ∧
    (∃ t1 t2, NotifyMsg exY7 (0x64 :: exAddX1) = Outcome.returned t1 ∧
      NotifyMsg t1 (0x64 :: exAddX2) = Outcome.returned t2 ∧
      t1.get (ascii "x") = some (ascii "1") ∧ t2.get (ascii "x") = some (ascii "2")) :=
  NotifyMsg_last_write_wins exY7 (ascii "x") (ascii "1") (ascii "2")
    ⟨ascii "add", exX1⟩ ⟨ascii "add", exX2⟩ _ exAddX1 exAddX2
    rfl rfl (by decide) (by decide) (by decide) (by decide) (by decide)

theorem applyData_idem (s : GoMap) (u : update) (hadd : u.Action = ascii "add") :
    applyData (applyData s u) u = applyData s u := by
  apply GoMap.ext
  intro k
  simp only [get_applyData, stepKey, if_pos hadd]
  cases u.Data.get k <;> rfl

/-- C8. Idempotence of `add`: delivering the same `add` Update twice in succession (as two
messages, or twice in one message) leaves the mapping that delivering it once leaves. -/
theorem NotifyMsg_add_idempotent (s : GoMap) (u : update) (p1 p2 : GoString)
    (hadd : u.Action = ascii "add")
    (h1 : jsonUnmarshalUpdates p1 = some [some u])
    (h2 : jsonUnmarshalUpdates p2 = some [some u, some u]) :
    ∃ t, NotifyMsg s (0x64 :: p1) = Outcome.returned t ∧
      NotifyMsg t (0x64 :: p1) = Outcome.returned t ∧
      NotifyMsg s (0x64 :: p2) = Outcome.returned t := by
  refine ⟨applyData s u, NotifyMsg_updates s [u] h1, ?_, ?_⟩
  · rw [NotifyMsg_updates _ [u] h1]
    simp only [List.foldl_cons, List.foldl_nil, applyData_idem s u hadd]
  · rw [NotifyMsg_updates s [u, u] h2]
    simp only [List.foldl_cons, List.foldl_nil, applyData_idem s u hadd]

/-- Witness for C8: `add x = 1` delivered twice to a node holding `{"x": "2"}`. -/
theorem NotifyMsg_add_idempotent_witness :
    ∃ t, NotifyMsg exX2 (0x64 :: exAddX1) = Outcome.returned t ∧
      NotifyMsg t (0x64 :: exAddX1) = Outcome.returned t ∧
      NotifyMsg exX2 (0x64 :: ascii
        "[\x7b\"Action\":\"add\",\"Data\":\x7b\"x\":\"1\"\x7d\x7d,\x7b\"Action\":\"add\",\"Data\":\x7b\"x\":\"1\"\x7d\x7d]")
        = Outcome.returned t :=
  NotifyMsg_add_idempotent exX2 ⟨ascii "add", exX1⟩ exAddX1 _ rfl (by decide) (by decide)

/-- C5. `MergeRemoteState` against its reference definition.  When `buf` is non-empty,
`join` is true and `buf` decodes as a JSON mapping `m`, every key of `m` gets the value
`m` has for it and every key not in `m` keeps the presence and value it had in `s` (so no
key is removed).  When `buf` is empty, `join` is false or `buf` does not decode, the
mapping is exactly `s`.  The function is total: it has no failing path. -/
theorem MergeRemoteState_reference (s : GoMap) (buf : GoString) (join : Bool) :
    (∀ m, buf ≠ [] → join = true → jsonUnmarshalMap buf = some m →
      (∀ k v, m.get k = some v → (MergeRemoteState s buf join).get k = some v) ∧
      (∀ k, m.get k = none → (MergeRemoteState s buf join).get k = s.get k)) ∧
    (buf = [] ∨ join = false ∨ jsonUnmarshalMap buf = none →
      MergeRemoteState s buf join = s) := by
  constructor
  · intro m hbuf hjoin hdec
    have hlen : ¬ buf.length = 0 := by
      intro h
      exact hbuf (List.length_eq_zero.1 h)
    have hm : MergeRemoteState s buf join = mergeEntries s m := by
      simp [MergeRemoteState, hlen, hjoin, hdec]
    rw [hm]
    constructor
    · intro k v hk
      rw [get_mergeEntries, hk]
    · intro k hk
      rw [get_mergeEntries, hk]
  · rintro (h | h | h)
    · subst h; rfl
    · subst h
      simp [MergeRemoteState]
    · simp [MergeRemoteState, h]

/-- An instance of C5: a node holding `{"y": "7"}` merges the snapshot `{"x":"1"}` at join
time, ignores it outside the join path, and ignores a malformed one. -/
theorem MergeRemoteState_reference_witness :
    MergeRemoteState exY7 (ascii "\x7b\"x\":\"1\"\x7d") true = exY7.set (ascii "x") (ascii "1") ∧
    MergeRemoteState exY7 (ascii "\x7b\"x\":\"1\"\x7d") false = exY7 ∧
    MergeRemoteState exY7 (ascii "\x7b\"x\":1\x7d") true = exY7 ∧
    MergeRemoteState exY7 [] true = exY7 := by
  have h := MergeRemoteState_reference exY7 (ascii "\x7b\"x\":1\x7d") true
  exact ⟨by decide, by decide, h.2 (Or.inr (Or.inr (by decide))), by decide⟩

/-! ## Order of arrival -/

theorem get_foldl_applyData (k : GoString) (l : List update) (s : GoMap) :
    (l.foldl applyData s).get k = l.foldl (fun o u => stepKey u k o) (s.get k) := by
  induction l generalizing s with
  | nil => rfl
  | cons u rest ih => rw [List.foldl_cons, ih, get_applyData, List.foldl_cons]

theorem stepKey_of_not_touches {u : update} {k : GoString} (h : touches k u = false)
    (o : Option GoString) : stepKey u k o = o := by
  unfold touches at h
  have hnone : u.Data.get k = none := by
    cases hg : u.Data.get k with
    | none => rfl
    | some v => rw [hg] at h; exact Bool.noConfusion h
  unfold stepKey
  rw [hnone]
  split_ifs <;> rfl

theorem foldl_stepKey_filter (k : GoString) (l : List update) (o : Option GoString) :
    l.foldl (fun o u => stepKey u k o) o
      = (l.filter (touches k)).foldl (fun o u => stepKey u k o) o := by
  induction l generalizing o with
  | nil => rfl
  | cons u rest ih =>
    cases h : touches k u with
    | true => rw [List.filter_cons_of_pos h, List.foldl_cons, List.foldl_cons, ih]
    | false =>
      rw [List.filter_cons_of_neg (by simp [h]), List.foldl_cons,
        stepKey_of_not_touches h, ih]

theorem foldl_applyData_eq_of_filter_eq (s : GoMap) (l1 l2 : List update)
    (h : ∀ k, l1.filter (touches k) = l2.filter (touches k)) :
    l1.foldl applyData s = l2.foldl applyData s := by
  apply GoMap.ext
  intro k
  rw [get_foldl_applyData, get_foldl_applyData, foldl_stepKey_filter k l1,
    foldl_stepKey_filter k l2, h k]

theorem deliver_carries (s : GoMap) (msgs : List GoString) (uss : List (List update))
    (h : List.Forall₂ carries msgs uss) :
    deliver s msgs = Outcome.returned (uss.flatten.foldl applyData s) := by
  induction h generalizing s with
  | nil => rfl
  | cons hc _ ih =>
    obtain ⟨payload, hmsg, hdec⟩ := hc
    subst hmsg
    simp only [deliver, NotifyMsg_updates s _ hdec, ih, List.flatten, List.foldl_append]

/-- C3. Order-independence up to per-key order.  Two sequences of messages carry the
`add`/`del` Updates `uss1` and `uss2` (bundled into messages in any way).  If the two
Update sequences are permutations of each other and, for each key, the Updates touching
that key occur in the same relative order in both, then delivering either sequence of
messages to a node with mapping `s` returns, and leaves the same mapping. -/
theorem deliver_order_independent (s : GoMap) (msgs1 msgs2 : List GoString)
    (uss1 uss2 : List (List update))
    (hc1 : List.Forall₂ carries msgs1 uss1) (hc2 : List.Forall₂ carries msgs2 uss2)
    (_hact : ∀ u ∈ uss1.flatten, u.Action = ascii "add" ∨ u.Action = ascii "del")
    (_hperm : uss1.flatten.Perm uss2.flatten)
    (hkey : ∀ k, uss1.flatten.filter (touches k) = uss2.flatten.filter (touches k)) :
    ∃ t, deliver s msgs1 = Outcome.returned t ∧ deliver s msgs2 = Outcome.returned t := by
  refine ⟨uss1.flatten.foldl applyData s, deliver_carries s msgs1 uss1 hc1, ?_⟩
  rw [deliver_carries s msgs2 uss2 hc2, foldl_applyData_eq_of_filter_eq s _ _ hkey]

/-- Witness for C3: `add x = 1`, `del x`, `add y = 7` in three messages against
`add y = 7` first and then `add x = 1`, `del x` bundled in one message: the Updates on
`x` keep their order, the Update on `y` moves. -/
theorem deliver_order_independent_witness :
    ∃ t, deliver exX2 [0x64 :: exAddX1, 0x64 :: exDelX, exMsgAddY7] = Outcome.returned t ∧
      deliver exX2 [exMsgAddY7, ascii
        "d[\x7b\"Action\":\"add\",\"Data\":\x7b\"x\":\"1\"\x7d\x7d,\x7b\"Action\":\"del\",\"Data\":\x7b\"x\":\"\"\x7d\x7d]"]
        = Outcome.returned t :=
  deliver_order_independent exX2 _ _
    [[⟨ascii "add", exX1⟩], [⟨ascii "del", GoMap.empty.set (ascii "x") []⟩],
      [⟨ascii "add", exY7⟩]]
    [[⟨ascii "add", exY7⟩],
      [⟨ascii "add", exX1⟩, ⟨ascii "del", GoMap.empty.set (ascii "x") []⟩]]
    (List.Forall₂.cons ⟨_, rfl, by decide⟩ (List.Forall₂.cons ⟨_, rfl, by decide⟩
      (List.Forall₂.cons ⟨_, rfl, by decide⟩ List.Forall₂.nil)))
    (List.Forall₂.cons ⟨_, rfl, by decide⟩ (List.Forall₂.cons ⟨_, rfl, by decide⟩
      List.Forall₂.nil))
    (by decide)
    (by decide)
    (by
      intro k
      by_cases hx : k = ascii "x"
      · subst hx; decide
      · by_cases hy : k = ascii "y"
        · subst hy; decide
        · have hx1 : lookupEntry k exX1.entries = none := by
            simp [exX1, GoMap.set, GoMap.empty, insertEntry, lookupEntry, hx]
          have hy1 : lookupEntry k exY7.entries = none := by
            simp [exY7, GoMap.set, GoMap.empty, insertEntry, lookupEntry, hy]
          have hd1 : lookupEntry k (GoMap.empty.set (ascii "x") []).entries = none := by
            simp [GoMap.set, GoMap.empty, insertEntry, lookupEntry, hx]
          simp [List.filter, touches, GoMap.get, hx1, hy1, hd1])

/-! ## The broadcast queue hook -/

/-- C9 as stated fails: the broadcast that `addHandler` builds for a newer `add` of key
`x` does not invalidate the (different) broadcast built for an older `add` of the same
key, and enqueuing it leaves the older one in the queue. -/
theorem Invalidates_newer_same_key :
    Invalidates (addHandler exX1 (ascii "x") (ascii "2")).2
      (addHandler GoMap.empty (ascii "x") (ascii "1")).2 = false ∧
    (addHandler exX1 (ascii "x") (ascii "2")).2
      ≠ (addHandler GoMap.empty (ascii "x") (ascii "1")).2 ∧
    QueueBroadcast [(addHandler GoMap.empty (ascii "x") (ascii "1")).2]
        (addHandler exX1 (ascii "x") (ascii "2")).2
      = [(addHandler GoMap.empty (ascii "x") (ascii "1")).2,
          (addHandler exX1 (ascii "x") (ascii "2")).2] := by
  refine ⟨rfl, by decide, rfl⟩

/-- C9, amended. `Invalidates` returns false for every pair of broadcasts; in particular
the broadcast built by `addHandler` or `delHandler` for a key never invalidates a
broadcast built earlier for the same key, so that enqueuing the newer broadcast removes
nothing from the queue: every pending broadcast stays, followed by the new one. -/
theorem Invalidates_always_false (b other : broadcast) :
    Invalidates b other = false ∧
    (∀ (items1 items2 : GoMap) (key val1 val2 : GoString),
      Invalidates (addHandler items2 key val2).2 (addHandler items1 key val1).2 = false ∧
      Invalidates (delHandler items2 key).2 (addHandler items1 key val1).2 = false) ∧
    (∀ pending : List broadcast, QueueBroadcast pending b = pending ++ [b]) := by
  refine ⟨rfl, fun _ _ _ _ _ => ⟨rfl, rfl⟩, fun pending => ?_⟩
  simp [QueueBroadcast, Invalidates]

/-! ## `start` -/

/-- C10 as stated fails: with one seed given, `memberlist.Create` succeeding and `Join`
failing, `start` returns the join error. -/
theorem start_join_failure_is_returned :
    start (ascii "127.0.0.1:7946") none (fun _ => some (ascii "no reachable seed"))
      = some (ascii "no reachable seed") := by
  decide

/-- C10, amended. `start` returns an error exactly when creating the local membership
instance fails, or creation succeeds, the seed list is non-empty and the join fails;
the error returned is that of the failing call.  With an empty seed list no join is
attempted. -/
theorem start_error_iff (members : GoString) (createErr : Option GoString)
    (joinErr : List GoString → Option GoString) :
    (start members createErr joinErr ≠ none ↔
      createErr ≠ none ∨
        (createErr = none ∧ members ≠ [] ∧ joinErr (splitComma [] members) ≠ none)) ∧
    (createErr ≠ none → start members createErr joinErr = createErr) ∧
    (createErr = none → members ≠ [] →
      start members createErr joinErr = joinErr (splitComma [] members)) ∧
    (createErr = none → members = [] → start members createErr joinErr = none) := by
  cases createErr with
  | some e => simp [start]
  | none =>
    cases members with
    | nil => simp [start]
    | cons c rest =>
      cases h : joinErr (splitComma [] (c :: rest)) <;> simp [start, h]

/-! ## Nil pointers in a gossip message -/

/-- C4 fails on the code: a message whose JSON array holds `null` after a valid Update
makes `NotifyMsg` panic (nil pointer dereference at `u.Data`) with the first Update
already applied: the mapping is neither the old one nor the one of the whole message. -/
theorem NotifyMsg_null_element_panics :
    NotifyMsg exY7 (ascii "d[\x7b\"Action\":\"add\",\"Data\":\x7b\"x\":\"1\"\x7d\x7d,null]")
      = Outcome.panicked (exY7.set (ascii "x") (ascii "1")) ∧
    exY7.set (ascii "x") (ascii "1") ≠ exY7 ∧
    NotifyMsg exY7 (ascii "d[null]") = Outcome.panicked exY7 := by
  decide

/-- What remains of C4 on the code: for every mapping and every byte sequence whose
decoded slice holds no nil pointer (empty input, a tag other than `d` and a payload
that does not decode included), `NotifyMsg` returns, and the mapping is either
unchanged or the result of applying every Update of the message in order. -/
theorem NotifyMsg_all_or_nothing (s : GoMap) (b : GoString)
    (hnil : ∀ payload us, b = 0x64 :: payload → jsonUnmarshalUpdates payload = some us →
      none ∉ us) :
    NotifyMsg s b = Outcome.returned s ∨
      ∃ (payload : GoString) (us : List update), b = 0x64 :: payload ∧
        jsonUnmarshalUpdates payload = some (us.map some) ∧
        NotifyMsg s b = Outcome.returned (us.foldl applyData s) := by
  cases b with
  | nil => exact Or.inl rfl
  | cons tag payload =>
    by_cases htag : tag.val = 0x64
    · have htag2 : tag = 0x64 := Fin.ext htag
      subst htag2
      cases hdec : jsonUnmarshalUpdates payload with
      | none => left; simp [NotifyMsg, hdec]
      | some us =>
        right
        have hno := hnil payload us rfl hdec
        have hus : us = (us.filterMap id).map some := by
          clear hdec hnil
          induction us with
          | nil => rfl
          | cons a rest ih =>
            cases a with
            | none => exact absurd (List.mem_cons_self _ _) hno
            | some u =>
              have := ih (fun h => hno (List.mem_cons_of_mem _ h))
              simp only [List.filterMap_cons, id, List.map_cons]
              rw [← this]
        rw [hus] at hdec
        exact ⟨payload, _, rfl, hdec, NotifyMsg_updates s _ hdec⟩
    · left
      simp [NotifyMsg, htag]

/-! ## UTF-8: decoding then encoding a rune -/

theorem ofNat_eq_of_val {b : Byte} {n : Nat} (h : n = b.val) : (Fin.ofNat n : Byte) = b := by
  apply Fin.ext
  have := b.isLt
  simp only [Fin.ofNat]
  omega

theorem isCont_iff (b : Byte) : isCont b = true ↔ 0x80 ≤ b.val ∧ b.val ≤ 0xBF := by
  simp [isCont]

theorem decodeRune_two (b b1 : Byte) (r : GoString) (h2 : 0xC2 ≤ b.val ∧ b.val ≤ 0xDF)
    (hc : isCont b1 = true) :
    decodeRune (b :: b1 :: r) = ((b.val % 32) * 64 + b1.val % 64, 2) := by
  have hb1 : ¬ b.val < 0x80 := by omega
  simp only [decodeRune, hb1, if_false, h2, and_self, if_true, hc]

theorem decodeRune_three (b b1 b2 : Byte) (r : GoString) (h3 : 0xE0 ≤ b.val ∧ b.val ≤ 0xEF)
    (hc : secondLo b ≤ b1.val ∧ b1.val ≤ secondHi b ∧ isCont b2 = true) :
    decodeRune (b :: b1 :: b2 :: r)
      = ((b.val % 16) * 4096 + (b1.val % 64) * 64 + b2.val % 64, 3) := by
  have hb1 : ¬ b.val < 0x80 := by omega
  have h2 : ¬ (0xC2 ≤ b.val ∧ b.val ≤ 0xDF) := by omega
  simp only [decodeRune, hb1, if_false, h2, h3, and_self, if_true, hc]

theorem decodeRune_four (b b1 b2 b3 : Byte) (r : GoString) (h4 : 0xF0 ≤ b.val ∧ b.val ≤ 0xF4)
    (hc : secondLo b ≤ b1.val ∧ b1.val ≤ secondHi b ∧ isCont b2 = true ∧ isCont b3 = true) :
    decodeRune (b :: b1 :: b2 :: b3 :: r)
      = ((b.val % 8) * 262144 + (b1.val % 64) * 4096 + (b2.val % 64) * 64 + b3.val % 64, 4) := by
  have hb1 : ¬ b.val < 0x80 := by omega
  have h2 : ¬ (0xC2 ≤ b.val ∧ b.val ≤ 0xDF) := by omega
  have h3 : ¬ (0xE0 ≤ b.val ∧ b.val ≤ 0xEF) := by omega
  simp only [decodeRune, hb1, if_false, h2, h3, h4, and_self, if_true, hc]

theorem runeAt_two (b b1 : Byte) (r : GoString) (h2 : 0xC2 ≤ b.val ∧ b.val ≤ 0xDF)
    (hc : isCont b1 = true) : RuneAt (b :: b1 :: r) [b, b1] r := by
  have hd := decodeRune_two b b1 r h2 hc
  have hc1 := (isCont_iff b1).1 hc
  refine ⟨rfl, by rw [hd]; rfl, by simp, ?_, ?_, ?_⟩
  · intro c hmem
    simp only [List.mem_cons, List.mem_singleton, List.not_mem_nil, or_false] at hmem
    rcases hmem with h | h <;> subst h <;> omega
  · rw [hd]
    simp only [encodeRune]
    rw [if_neg (by omega), if_pos (by omega)]
    rw [ofNat_eq_of_val (b := b) (by omega), ofNat_eq_of_val (b := b1) (by omega)]
  · intro t
    rw [hd]
    exact decodeRune_two b b1 t h2 hc

theorem runeAt_three (b b1 b2 : Byte) (r : GoString) (h3 : 0xE0 ≤ b.val ∧ b.val ≤ 0xEF)
    (hc : secondLo b ≤ b1.val ∧ b1.val ≤ secondHi b ∧ isCont b2 = true) :
    RuneAt (b :: b1 :: b2 :: r) [b, b1, b2] r := by
  have hd := decodeRune_three b b1 b2 r h3 hc
  have hc2 := (isCont_iff b2).1 hc.2.2
  have hlo : 0x80 ≤ b1.val ∧ (b.val = 0xE0 → 0xA0 ≤ b1.val) := by
    have := hc.1
    unfold secondLo at this
    split_ifs at this <;> omega
  have hhi : b1.val ≤ 0xBF ∧ (b.val = 0xED → b1.val ≤ 0x9F) := by
    have := hc.2.1
    unfold secondHi at this
    split_ifs at this <;> omega
  refine ⟨rfl, by rw [hd]; rfl, by simp, ?_, ?_, ?_⟩
  · intro c hmem
    simp only [List.mem_cons, List.mem_singleton, List.not_mem_nil, or_false] at hmem
    rcases hmem with h | h | h <;> subst h <;> omega
  · rw [hd]
    simp only [encodeRune]
    rw [if_neg (by omega), if_neg (by omega), if_neg (by omega), if_pos (by omega)]
    rw [ofNat_eq_of_val (b := b) (by omega), ofNat_eq_of_val (b := b1) (by omega),
      ofNat_eq_of_val (b := b2) (by omega)]
  · intro t
    rw [hd]
    exact decodeRune_three b b1 b2 t h3 hc

theorem runeAt_four (b b1 b2 b3 : Byte) (r : GoString) (h4 : 0xF0 ≤ b.val ∧ b.val ≤ 0xF4)
    (hc : secondLo b ≤ b1.val ∧ b1.val ≤ secondHi b ∧ isCont b2 = true ∧ isCont b3 = true) :
    RuneAt (b :: b1 :: b2 :: b3 :: r) [b, b1, b2, b3] r := by
  have hd := decodeRune_four b b1 b2 b3 r h4 hc
  have hc2 := (isCont_iff b2).1 hc.2.2.1
  have hc3 := (isCont_iff b3).1 hc.2.2.2
  have hlo : 0x80 ≤ b1.val ∧ (b.val = 0xF0 → 0x90 ≤ b1.val) := by
    have := hc.1
    unfold secondLo at this
    split_ifs at this <;> omega
  have hhi : b1.val ≤ 0xBF ∧ (b.val = 0xF4 → b1.val ≤ 0x8F) := by
    have := hc.2.1
    unfold secondHi at this
    split_ifs at this <;> omega
  refine ⟨rfl, by rw [hd]; rfl, by simp, ?_, ?_, ?_⟩
  · intro c hmem
    simp only [List.mem_cons, List.mem_singleton, List.not_mem_nil, or_false] at hmem
    rcases hmem with h | h | h | h <;> subst h <;> omega
  · rw [hd]
    simp only [encodeRune]
    rw [if_neg (by omega), if_neg (by omega), if_neg (by omega), if_neg (by omega)]
    rw [ofNat_eq_of_val (b := b) (by omega), ofNat_eq_of_val (b := b1) (by omega),
      ofNat_eq_of_val (b := b2) (by omega), ofNat_eq_of_val (b := b3) (by omega)]
  · intro t
    rw [hd]
    exact decodeRune_four b b1 b2 b3 t h4 hc

theorem decodeRune_cases (b : Byte) (rest : GoString) (hb : 0x80 ≤ b.val) :
    decodeRune (b :: rest) = (RuneError, 1) ∨
      ∃ chunk tail, RuneAt (b :: rest) chunk tail := by
  have hb1 : ¬ b.val < 0x80 := by omega
  by_cases h2 : 0xC2 ≤ b.val ∧ b.val ≤ 0xDF
  · cases rest with
    | nil => left; simp [decodeRune, hb1, h2]
    | cons b1 r1 =>
      by_cases hc : isCont b1 = true
      · exact Or.inr ⟨_, _, runeAt_two b b1 r1 h2 hc⟩
      · left; simp [decodeRune, hb1, h2, hc]
  · by_cases h3 : 0xE0 ≤ b.val ∧ b.val ≤ 0xEF
    · match rest with
      | [] => left; simp [decodeRune, hb1, h2, h3]
      | [_] => left; simp [decodeRune, hb1, h2, h3]
      | b1 :: b2 :: r2 =>
        by_cases hc : secondLo b ≤ b1.val ∧ b1.val ≤ secondHi b ∧ isCont b2 = true
        · exact Or.inr ⟨_, _, runeAt_three b b1 b2 r2 h3 hc⟩
        · left; simp only [decodeRune, hb1, h2, h3, hc, if_false, and_self, if_true]
    · by_cases h4 : 0xF0 ≤ b.val ∧ b.val ≤ 0xF4
      · match rest with
        | [] => left; simp [decodeRune, hb1, h2, h3, h4]
        | [_] => left; simp [decodeRune, hb1, h2, h3, h4]
        | [_, _] => left; simp [decodeRune, hb1, h2, h3, h4]
        | b1 :: b2 :: b3 :: r3 =>
          by_cases hc : secondLo b ≤ b1.val ∧ b1.val ≤ secondHi b
              ∧ isCont b2 = true ∧ isCont b3 = true
          · exact Or.inr ⟨_, _, runeAt_four b b1 b2 b3 r3 h4 hc⟩
          · left; simp only [decodeRune, hb1, h2, h3, h4, hc, if_false, and_self, if_true]
      · left; simp only [decodeRune, hb1, h2, h3, h4, if_false]

/-! ## String literals: writing, then reading -/

theorem hexVal_hexDigit (n : Nat) (h : n < 16) : hexVal (hexDigit n) = some n := by
  interval_cases n <;> rfl

theorem scanStringLit_cons (c : Byte) (t : GoString) :
    scanStringLit (c :: t) =
      if c.val = 0x22 then some ([], t)
      else if c.val = 0x5C then
        match t with
        | [] => none
        | e :: rest1 =>
          if e.val = 0x22 ∨ e.val = 0x5C ∨ e.val = 0x2F ∨ e.val = 0x62 ∨ e.val = 0x66
              ∨ e.val = 0x6E ∨ e.val = 0x72 ∨ e.val = 0x74 then
            (scanStringLit rest1).map (fun r => (c :: e :: r.1, r.2))
          else if e.val = 0x75 then
            match rest1 with
            | h1 :: h2 :: h3 :: h4 :: rest2 =>
              if (hexVal h1).isSome ∧ (hexVal h2).isSome ∧ (hexVal h3).isSome
                  ∧ (hexVal h4).isSome then
                (scanStringLit rest2).map (fun r => (c :: e :: h1 :: h2 :: h3 :: h4 :: r.1, r.2))
              else none
            | _ => none
          else none
      else if c.val < 0x20 then none
      else (scanStringLit t).map (fun r => (c :: r.1, r.2)) := by
  conv_lhs => rw [scanStringLit.eq_def]
  rfl

theorem scanStringLit_quote (t : GoString) : scanStringLit (0x22 :: t) = some ([], t) := by
  rw [scanStringLit_cons, if_pos (by decide)]

theorem scanStringLit_plain (c : Byte) (t : GoString) (h1 : 0x20 ≤ c.val)
    (h2 : c.val ≠ 0x22) (h3 : c.val ≠ 0x5C) :
    scanStringLit (c :: t) = (scanStringLit t).map (fun r => (c :: r.1, r.2)) := by
  rw [scanStringLit_cons, if_neg h2, if_neg h3, if_neg (by omega)]

theorem scanStringLit_esc (e : Byte) (t : GoString)
    (he : e.val = 0x22 ∨ e.val = 0x5C ∨ e.val = 0x2F ∨ e.val = 0x62 ∨ e.val = 0x66
      ∨ e.val = 0x6E ∨ e.val = 0x72 ∨ e.val = 0x74) :
    scanStringLit (0x5C :: e :: t)
      = (scanStringLit t).map (fun r => (0x5C :: e :: r.1, r.2)) := by
  rw [scanStringLit_cons, if_neg (by decide), if_pos (by decide)]
  simp only
  rw [if_pos he]

theorem scanStringLit_escU (h1 h2 h3 h4 : Byte) (t : GoString)
    (hh : (hexVal h1).isSome ∧ (hexVal h2).isSome ∧ (hexVal h3).isSome ∧ (hexVal h4).isSome) :
    scanStringLit (0x5C :: 0x75 :: h1 :: h2 :: h3 :: h4 :: t)
      = (scanStringLit t).map
          (fun r => (0x5C :: 0x75 :: h1 :: h2 :: h3 :: h4 :: r.1, r.2)) := by
  rw [scanStringLit_cons, if_neg (by decide), if_pos (by decide)]
  simp only
  rw [if_neg (by decide), if_pos (by decide), if_pos hh]

theorem scanStringLit_plain_append (chunk t : GoString)
    (h : ∀ c ∈ chunk, 0x20 ≤ c.val ∧ c.val ≠ 0x22 ∧ c.val ≠ 0x5C) :
    scanStringLit (chunk ++ t) = (scanStringLit t).map (fun r => (chunk ++ r.1, r.2)) := by
  induction chunk with
  | nil => simp
  | cons c cs ih =>
    have hc := h c (List.mem_cons_self _ _)
    rw [List.cons_append, scanStringLit_plain c _ hc.1 hc.2.1 hc.2.2,
      ih (fun x hx => h x (List.mem_cons_of_mem _ hx))]
    cases scanStringLit t <;> rfl

theorem scanStringLit_appendString (n : Nat) (s rest : GoString) :
    scanStringLit (appendStringFuel n s ++ 0x22 :: rest)
      = some (appendStringFuel n s, rest) := by
  induction n generalizing s with
  | zero =>
    cases s with
    | nil => simp [appendStringFuel, scanStringLit_quote]
    | cons b t => simp [appendStringFuel, scanStringLit_quote]
  | succ n ih =>
    cases s with
    | nil => simp [appendStringFuel, scanStringLit_quote]
    | cons b t =>
      rw [appendStringFuel]
      by_cases hb : b.val < 0x80
      · rw [if_pos hb]
        by_cases hs : htmlSafe b = true
        · have hs2 := hs
          simp only [htmlSafe, decide_eq_true_eq] at hs2
          rw [if_pos hs]
          simp only [List.append_assoc, List.cons_append, List.nil_append]
          rw [scanStringLit_plain b _ hs2.1 hs2.2.2.1 (by omega), ih]
          rfl
        · rw [if_neg hs]
          by_cases hq : b.val = 0x5C ∨ b.val = 0x22
          · rw [if_pos hq]
            simp only [List.append_assoc, List.cons_append, List.nil_append]
            rw [scanStringLit_esc b _ (by omega), ih]
            rfl
          · rw [if_neg hq]
            split_ifs
            all_goals simp only [List.append_assoc, List.cons_append, List.nil_append]
            · rw [scanStringLit_esc _ _ (by decide), ih]; rfl
            · rw [scanStringLit_esc _ _ (by decide), ih]; rfl
            · rw [scanStringLit_esc _ _ (by decide), ih]; rfl
            · rw [scanStringLit_esc _ _ (by decide), ih]; rfl
            · rw [scanStringLit_esc _ _ (by decide), ih]; rfl
            · have hlt : b.val / 16 < 16 := by omega
              have hlt2 : b.val % 16 < 16 := by omega
              rw [scanStringLit_escU _ _ _ _ _
                ⟨by decide, by decide, by rw [hexVal_hexDigit _ hlt]; rfl,
                  by rw [hexVal_hexDigit _ hlt2]; rfl⟩, ih]
              rfl
      · rw [if_neg hb]
        simp only
        split_ifs with h1 h2
        · simp only [List.append_assoc, List.cons_append, List.nil_append]
          rw [scanStringLit_escU _ _ _ _ _ ⟨by decide, by decide, by decide, by decide⟩, ih]
          rfl
        · simp only [List.append_assoc, List.cons_append, List.nil_append]
          have hlt2 : (decodeRune (b :: t)).1 % 16 < 16 := by omega
          rw [scanStringLit_escU _ _ _ _ _
            ⟨by decide, by decide, by decide, by rw [hexVal_hexDigit _ hlt2]; rfl⟩, ih]
          rfl
        · rcases decodeRune_cases b t (by omega) with hd | ⟨chunk, tail, hr⟩
          · exact absurd ⟨by rw [hd], by rw [hd]⟩ h1
          · have htake : List.take (decodeRune (b :: t)).2 (b :: t) = chunk := by
              rw [← hr.len, hr.split, List.take_left']
              rfl
            rw [htake, List.append_assoc, scanStringLit_plain_append chunk _
              (fun c hc => by have := hr.high c hc; omega), ih]
            rfl

theorem unquoteFuel_nil (f : Nat) : unquoteFuel (f + 1) [] = some [] := by
  rw [unquoteFuel]

theorem unquoteFuel_cons (fuel : Nat) (c : Byte) (rest : GoString) :
    unquoteFuel (fuel + 1) (c :: rest) =
      if c.val = 0x5C then
        match rest with
        | [] => none
        | e :: rest1 =>
          if e.val = 0x22 ∨ e.val = 0x5C ∨ e.val = 0x2F ∨ e.val = 0x27 then
            (unquoteFuel fuel rest1).map (e :: ·)
          else if e.val = 0x62 then (unquoteFuel fuel rest1).map ((0x08 : Byte) :: ·)
          else if e.val = 0x66 then (unquoteFuel fuel rest1).map ((0x0C : Byte) :: ·)
          else if e.val = 0x6E then (unquoteFuel fuel rest1).map ((0x0A : Byte) :: ·)
          else if e.val = 0x72 then (unquoteFuel fuel rest1).map ((0x0D : Byte) :: ·)
          else if e.val = 0x74 then (unquoteFuel fuel rest1).map ((0x09 : Byte) :: ·)
          else if e.val = 0x75 then
            match getu4 (c :: rest) with
            | none => none
            | some rr =>
              if isSurrogate rr then
                let dec := utf16DecodeRune rr (getu4 (rest.drop 5))
                if dec ≠ RuneError then
                  (unquoteFuel fuel (rest.drop 11)).map (encodeRune dec ++ ·)
                else (unquoteFuel fuel (rest.drop 5)).map (encodeRune RuneError ++ ·)
              else (unquoteFuel fuel (rest.drop 5)).map (encodeRune rr ++ ·)
          else none
      else if c.val = 0x22 ∨ c.val < 0x20 then none
      else if c.val < 0x80 then (unquoteFuel fuel rest).map (c :: ·)
      else
        let d := decodeRune (c :: rest)
        (unquoteFuel fuel ((c :: rest).drop d.2)).map (encodeRune d.1 ++ ·) := by
  conv_lhs => rw [unquoteFuel.eq_def]
  rfl

theorem unquoteFuel_ascii (f : Nat) (c : Byte) (t : GoString) (h1 : 0x20 ≤ c.val)
    (h2 : c.val ≠ 0x22) (h3 : c.val ≠ 0x5C) (h4 : c.val < 0x80) :
    unquoteFuel (f + 1) (c :: t) = (unquoteFuel f t).map (c :: ·) := by
  rw [unquoteFuel_cons, if_neg h3, if_neg (by omega), if_pos h4]

theorem unquoteFuel_esc_self (f : Nat) (e : Byte) (t : GoString)
    (he : e.val = 0x5C ∨ e.val = 0x22) :
    unquoteFuel (f + 1) (0x5C :: e :: t) = (unquoteFuel f t).map (e :: ·) := by
  rw [unquoteFuel, if_pos (by decide)]
  simp only
  rw [if_pos (by omega)]

theorem unquoteFuel_esc_b (f : Nat) (t : GoString) :
    unquoteFuel (f + 1) (0x5C :: 0x62 :: t) = (unquoteFuel f t).map ((0x08 : Byte) :: ·) := by
  rw [unquoteFuel, if_pos (by decide)]
  simp only
  rw [if_neg (by decide), if_pos (by decide)]

theorem unquoteFuel_esc_f (f : Nat) (t : GoString) :
    unquoteFuel (f + 1) (0x5C :: 0x66 :: t) = (unquoteFuel f t).map ((0x0C : Byte) :: ·) := by
  rw [unquoteFuel, if_pos (by decide)]
  simp only
  rw [if_neg (by decide), if_neg (by decide), if_pos (by decide)]

theorem unquoteFuel_esc_n (f : Nat) (t : GoString) :
    unquoteFuel (f + 1) (0x5C :: 0x6E :: t) = (unquoteFuel f t).map ((0x0A : Byte) :: ·) := by
  rw [unquoteFuel, if_pos (by decide)]
  simp only
  rw [if_neg (by decide), if_neg (by decide), if_neg (by decide), if_pos (by decide)]

theorem unquoteFuel_esc_r (f : Nat) (t : GoString) :
    unquoteFuel (f + 1) (0x5C :: 0x72 :: t) = (unquoteFuel f t).map ((0x0D : Byte) :: ·) := by
  rw [unquoteFuel, if_pos (by decide)]
  simp only
  rw [if_neg (by decide), if_neg (by decide), if_neg (by decide), if_neg (by decide),
    if_pos (by decide)]

theorem unquoteFuel_esc_t (f : Nat) (t : GoString) :
    unquoteFuel (f + 1) (0x5C :: 0x74 :: t) = (unquoteFuel f t).map ((0x09 : Byte) :: ·) := by
  rw [unquoteFuel, if_pos (by decide)]
  simp only
  rw [if_neg (by decide), if_neg (by decide), if_neg (by decide), if_neg (by decide),
    if_neg (by decide), if_pos (by decide)]

theorem getu4_escU (h1 h2 h3 h4 : Byte) (a b c d : Nat) (t : GoString)
    (e1 : hexVal h1 = some a) (e2 : hexVal h2 = some b) (e3 : hexVal h3 = some c)
    (e4 : hexVal h4 = some d) :
    getu4 (0x5C :: 0x75 :: h1 :: h2 :: h3 :: h4 :: t)
      = some (((a * 16 + b) * 16 + c) * 16 + d) := by
  rw [getu4, if_pos (by decide), e1, e2, e3, e4]

theorem unquoteFuel_escU (f : Nat) (h1 h2 h3 h4 : Byte) (r : Nat) (t : GoString)
    (hg : getu4 (0x5C :: 0x75 :: h1 :: h2 :: h3 :: h4 :: t) = some r)
    (hs : isSurrogate r = false) :
    unquoteFuel (f + 1) (0x5C :: 0x75 :: h1 :: h2 :: h3 :: h4 :: t)
      = (unquoteFuel f t).map (encodeRune r ++ ·) := by
  rw [unquoteFuel, if_pos (by decide)]
  simp only
  rw [if_neg (by decide), if_neg (by decide), if_neg (by decide), if_neg (by decide),
    if_neg (by decide), if_neg (by decide), if_pos (by decide), hg]
  simp only [hs, Bool.false_eq_true, if_false, List.drop_succ_cons, List.drop_zero]

theorem unquoteFuel_rune (f : Nat) (p chunk tail : GoString) (hr : RuneAt p chunk tail)
    (t : GoString) :
    unquoteFuel (f + 1) (chunk ++ t) = (unquoteFuel f t).map (chunk ++ ·) := by
  obtain ⟨c, cs, hchunk⟩ : ∃ c cs, chunk = c :: cs := by
    cases chunk with
    | nil => have := hr.two; simp at this
    | cons c cs => exact ⟨c, cs, rfl⟩
  have hc : 0x80 ≤ c.val := hr.high c (by rw [hchunk]; exact List.mem_cons_self _ _)
  have hst := hr.stable t
  have hlen := hr.len
  have henc := hr.enc
  subst hchunk
  rw [List.cons_append, unquoteFuel_cons, if_neg (by omega), if_neg (by omega),
    if_neg (by omega)]
  simp only
  rw [← List.cons_append, hst, ← hlen, henc, List.drop_left']
  rfl

theorem encodeRune_ascii (b : Byte) (h : b.val < 0x80) : encodeRune b.val = [b] := by
  rw [encodeRune, if_pos (by omega), ofNat_eq_of_val rfl]

theorem unquoteFuel_appendString (n : Nat) (s : GoString) (f : Nat)
    (hv : validUTF8Fuel n s = true) (hf : (appendStringFuel n s).length < f) :
    unquoteFuel f (appendStringFuel n s) = some s := by
  induction n generalizing s f with
  | zero =>
    cases s with
    | nil =>
      obtain ⟨f1, rfl⟩ : ∃ f1, f = f1 + 1 := ⟨f - 1, by omega⟩
      simp [appendStringFuel, unquoteFuel_nil]
    | cons b t => simp [validUTF8Fuel] at hv
  | succ n ih =>
    cases s with
    | nil =>
      obtain ⟨f1, rfl⟩ : ∃ f1, f = f1 + 1 := ⟨f - 1, by omega⟩
      simp [appendStringFuel, unquoteFuel_nil]
    | cons b t =>
      obtain ⟨f1, rfl⟩ : ∃ f1, f = f1 + 1 := ⟨f - 1, by omega⟩
      rw [appendStringFuel] at hf ⊢
      rw [validUTF8Fuel] at hv
      by_cases hb : b.val < 0x80
      · rw [if_pos hb] at hf hv ⊢
        have hlen : (appendStringFuel n t).length < f1 := by
          rw [List.length_append] at hf
          have : 0 < (if htmlSafe b = true then [b]
            else if b.val = 0x5C ∨ b.val = 0x22 then [0x5C, b]
            else if b.val = 0x08 then [0x5C, 0x62]
            else if b.val = 0x0C then [0x5C, 0x66]
            else if b.val = 0x0A then [0x5C, 0x6E]
            else if b.val = 0x0D then [0x5C, 0x72]
            else if b.val = 0x09 then [0x5C, 0x74]
            else [0x5C, 0x75, 0x30, 0x30, hexDigit (b.val / 16),
              hexDigit (b.val % 16)]).length := by
            split_ifs <;> simp
          omega
        have ih1 := ih t f1 hv hlen
        by_cases hs : htmlSafe b = true
        · have hs2 := hs
          simp only [htmlSafe, decide_eq_true_eq] at hs2
          rw [if_pos hs]
          simp only [List.cons_append, List.nil_append]
          rw [unquoteFuel_ascii f1 b _ hs2.1 hs2.2.2.1 (by omega) hb, ih1]
          rfl
        · rw [if_neg hs]
          by_cases hq : b.val = 0x5C ∨ b.val = 0x22
          · rw [if_pos hq]
            simp only [List.cons_append, List.nil_append]
            rw [unquoteFuel_esc_self f1 b _ hq, ih1]
            rfl
          · rw [if_neg hq]
            split_ifs with h8 hC hA hD h9
            all_goals simp only [List.cons_append, List.nil_append]
            · rw [unquoteFuel_esc_b, ih1]
              have : b = 0x08 := Fin.ext h8
              rw [this]; rfl
            · rw [unquoteFuel_esc_f, ih1]
              have : b = 0x0C := Fin.ext hC
              rw [this]; rfl
            · rw [unquoteFuel_esc_n, ih1]
              have : b = 0x0A := Fin.ext hA
              rw [this]; rfl
            · rw [unquoteFuel_esc_r, ih1]
              have : b = 0x0D := Fin.ext hD
              rw [this]; rfl
            · rw [unquoteFuel_esc_t, ih1]
              have : b = 0x09 := Fin.ext h9
              rw [this]; rfl
            · have hlt : b.val / 16 < 16 := by omega
              have hlt2 : b.val % 16 < 16 := by omega
              have hg := getu4_escU 0x30 0x30 (hexDigit (b.val / 16)) (hexDigit (b.val % 16))
                0 0 (b.val / 16) (b.val % 16) (appendStringFuel n t) (by decide) (by decide)
                (hexVal_hexDigit _ hlt) (hexVal_hexDigit _ hlt2)
              have hval : ((0 * 16 + 0) * 16 + b.val / 16) * 16 + b.val % 16 = b.val := by
                omega
              rw [hval] at hg
              rw [unquoteFuel_escU f1 _ _ _ _ b.val _ hg
                (by simp only [isSurrogate, decide_eq_false_iff_not]; omega), ih1,
                encodeRune_ascii b hb]
              rfl
      · rw [if_neg hb] at hf hv ⊢
        simp only at hf hv ⊢
        rcases decodeRune_cases b t (by omega) with hd | ⟨chunk, tail, hr⟩
        · rw [hd] at hv
          simp at hv
        · have hne : ¬ ((decodeRune (b :: t)).1 = RuneError ∧ (decodeRune (b :: t)).2 = 1) := by
            intro h
            have := hr.two
            rw [hr.len, h.2] at this
            omega
          rw [if_neg hne] at hf hv ⊢
          have hdrop : List.drop (decodeRune (b :: t)).2 (b :: t) = tail := by
            rw [← hr.len, hr.split, List.drop_left']
            rfl
          have htake : List.take (decodeRune (b :: t)).2 (b :: t) = chunk := by
            rw [← hr.len, hr.split, List.take_left']
            rfl
          rw [hdrop] at hf hv ⊢
          rw [htake] at hf ⊢
          have hsplit : b :: t = chunk ++ tail := hr.split
          by_cases h28 : (decodeRune (b :: t)).1 = 0x2028 ∨ (decodeRune (b :: t)).1 = 0x2029
          · rw [if_pos h28] at hf ⊢
            have hlen : (appendStringFuel n tail).length < f1 := by
              simp only [List.length_append, List.length_cons, List.length_nil] at hf
              omega
            have ih1 := ih tail f1 hv hlen
            simp only [List.cons_append, List.nil_append]
            have hlt2 : (decodeRune (b :: t)).1 % 16 < 16 := by omega
            have hg := getu4_escU 0x32 0x30 0x32 (hexDigit ((decodeRune (b :: t)).1 % 16))
              2 0 2 ((decodeRune (b :: t)).1 % 16) (appendStringFuel n tail)
              (by decide) (by decide) (by decide) (hexVal_hexDigit _ hlt2)
            have hval : ((2 * 16 + 0) * 16 + 2) * 16 + (decodeRune (b :: t)).1 % 16
                = (decodeRune (b :: t)).1 := by
              omega
            rw [hval] at hg
            rw [unquoteFuel_escU f1 _ _ _ _ _ _ hg
              (by simp only [isSurrogate, decide_eq_false_iff_not]; omega), ih1, hr.enc,
              hsplit]
            rfl
          · rw [if_neg h28] at hf ⊢
            have hlen : (appendStringFuel n tail).length < f1 := by
              have h2 := hr.two
              rw [List.length_append] at hf
              omega
            have ih1 := ih tail f1 hv hlen
            rw [unquoteFuel_rune f1 _ chunk tail hr, ih1, hsplit]
            rfl

theorem parseString_encodeString (s rest : GoString) (hv : validUTF8 s = true) :
    parseString (appendStringFuel s.length s ++ 0x22 :: rest) = some (s, rest) := by
  unfold parseString
  rw [scanStringLit_appendString]
  simp only
  unfold unquote
  rw [unquoteFuel_appendString s.length s _ hv (Nat.lt_succ_self _)]
  rfl

/-! ## Objects and arrays: writing, then reading -/

theorem skipSpace_of_not_space (c : Byte) (t : GoString) (h : isSpace c = false) :
    skipSpace (c :: t) = c :: t := by
  rw [skipSpace]
  simp [h]

theorem parseValue_string (f d : Nat) (t : GoString) :
    parseValue (f + 1) d (0x22 :: t)
      = (parseString t).map (fun r => (JSON.string r.1, r.2)) := by
  rw [parseValue, skipSpace_of_not_space _ _ (by decide)]
  simp only
  rw [if_pos (by decide)]

theorem parseValue_encodeString (f d : Nat) (s rest : GoString) (hv : validUTF8 s = true) :
    parseValue (f + 1) d (encodeString s ++ rest) = some (JSON.string s, rest) := by
  unfold encodeString
  simp only [List.cons_append, List.append_assoc, List.nil_append]
  rw [parseValue_string, parseString_encodeString s rest hv]
  rfl

theorem parseMembers_encodeEntries (es : List Entry) (e : Entry) (f d : Nat)
    (rest : GoString) (hu : utf8Entries (e :: es)) (hf : es.length + 2 ≤ f) :
    parseMembers f d (encodeEntries (e :: es) ++ 0x7D :: rest)
      = some ((e :: es).map (fun x => (x.1, JSON.string x.2)), rest) := by
  induction es generalizing e f with
  | nil =>
    obtain ⟨f1, rfl⟩ : ∃ f1, f = f1 + 2 := ⟨f - 2, by simp at hf; omega⟩
    have hk := (hu e (List.mem_cons_self _ _)).1
    have hv := (hu e (List.mem_cons_self _ _)).2
    rw [encodeEntries, parseMembers]
    unfold encodeString
    simp only [List.cons_append, List.append_assoc, List.nil_append]
    rw [skipSpace_of_not_space _ _ (by decide)]
    simp only
    rw [if_pos (by decide), parseString_encodeString _ _ hk]
    simp only
    rw [skipSpace_of_not_space _ _ (by decide)]
    simp only
    rw [if_pos (by decide), parseValue_string, parseString_encodeString _ _ hv]
    simp only [Option.map_some']
    rw [skipSpace_of_not_space _ _ (by decide)]
    simp only
    rw [if_neg (by decide), if_pos (by decide)]
    rfl
  | cons e1 es ih =>
    obtain ⟨f1, rfl⟩ : ∃ f1, f = f1 + 2 := ⟨f - 2, by simp at hf; omega⟩
    have hk := (hu e (List.mem_cons_self _ _)).1
    have hv := (hu e (List.mem_cons_self _ _)).2
    have hu1 : utf8Entries (e1 :: es) := fun x hx => hu x (List.mem_cons_of_mem _ hx)
    have ih1 := ih e1 (f1 + 1) hu1 (by simp at hf ⊢; omega)
    rw [encodeEntries, parseMembers]
    unfold encodeString
    simp only [List.cons_append, List.append_assoc, List.nil_append]
    rw [skipSpace_of_not_space _ _ (by decide)]
    simp only
    rw [if_pos (by decide), parseString_encodeString _ _ hk]
    simp only
    rw [skipSpace_of_not_space _ _ (by decide)]
    simp only
    rw [if_pos (by decide), parseValue_string, parseString_encodeString _ _ hv]
    simp only [Option.map_some']
    rw [skipSpace_of_not_space _ _ (by decide)]
    simp only
    rw [if_pos (by decide), ih1]
    rfl

theorem decodeMembersInto_strings (es : List Entry) (cur : GoMap) :
    decodeMembersInto cur (es.map (fun x => (x.1, JSON.string x.2)))
      = some (es.foldl (fun acc e => acc.set e.1 e.2) cur) := by
  induction es generalizing cur with
  | nil => rfl
  | cons e es ih =>
    simp only [List.map_cons, decodeMembersInto, decodeStringInto, List.foldl_cons]
    exact ih _

theorem foldl_set_entries (m : GoMap) :
    m.entries.foldl (fun acc e => acc.set e.1 e.2) GoMap.empty = m := by
  apply GoMap.ext
  intro k
  rw [get_foldl_set k _ m.ascending]
  unfold GoMap.get
  cases lookupEntry k m.entries <;> rfl

theorem length_encodeEntries (es : List Entry) : es.length ≤ (encodeEntries es).length := by
  induction es with
  | nil => simp
  | cons e es ih =>
    cases es with
    | nil => simp [encodeEntries, encodeString]
    | cons e1 es =>
      rw [encodeEntries]
      simp only [List.length_append, List.length_cons, encodeString] at ih ⊢
      omega

theorem parseValue_jsonMarshalMap (m : GoMap) (f d : Nat) (rest : GoString)
    (hu : utf8Entries m.entries) (hf : m.entries.length + 2 ≤ f) (hd : d < maxNestingDepth) :
    parseValue (f + 1) d (jsonMarshalMap m ++ rest)
      = some (JSON.object (m.entries.map (fun x => (x.1, JSON.string x.2))), rest) := by
  unfold jsonMarshalMap
  rw [parseValue]
  simp only [List.cons_append, List.append_assoc, List.nil_append]
  rw [skipSpace_of_not_space _ _ (by decide)]
  simp only
  rw [if_neg (by decide), if_neg (by decide), if_pos (by decide), if_neg (by omega)]
  cases hes : m.entries with
  | nil =>
    simp only [encodeEntries, List.nil_append]
    rw [skipSpace_of_not_space _ _ (by decide)]
    simp only
    rw [if_pos (by decide)]
    rfl
  | cons e es =>
    rw [hes] at hu hf
    have hq : ∃ t, encodeEntries (e :: es) ++ 0x7D :: rest = 0x22 :: t := by
      cases es with
      | nil => exact ⟨_, rfl⟩
      | cons e1 es => exact ⟨_, rfl⟩
    obtain ⟨t, ht⟩ := hq
    have hpm := parseMembers_encodeEntries es e f (d + 1) rest hu (by simp at hf; omega)
    rw [ht] at hpm ⊢
    rw [skipSpace_of_not_space _ _ (by decide)]
    simp only
    rw [if_neg (by decide), hpm]
    rfl

theorem jsonUnmarshalMap_jsonMarshalMap (m : GoMap) (hu : m.utf8) :
    jsonUnmarshalMap (jsonMarshalMap m) = some m := by
  have hlen : m.entries.length + 2 ≤ (jsonMarshalMap m).length := by
    have := length_encodeEntries m.entries
    simp only [jsonMarshalMap, List.length_cons, List.length_append, List.length_nil]
    omega
  have hp := parseValue_jsonMarshalMap m (jsonMarshalMap m).length 0 [] hu hlen
    (by decide)
  rw [List.append_nil] at hp
  unfold jsonUnmarshalMap parseJSON
  rw [hp]
  simp only [skipSpace, Option.bind, decodeMapInto]
  rw [decodeMembersInto_strings, foldl_set_entries]

theorem parseMembers_update (u : update) (f d : Nat) (rest : GoString)
    (ha : validUTF8 u.Action = true) (hu : u.Data.utf8)
    (hf : u.Data.entries.length + 4 ≤ f) (hd : d < maxNestingDepth) :
    parseMembers (f + 1) d
        (0x22 :: (ascii "Action" ++ 0x22 :: 0x3A :: (encodeString u.Action
          ++ 0x2C :: 0x22 :: (ascii "Data" ++ 0x22 :: 0x3A :: (jsonMarshalMap u.Data
          ++ 0x7D :: rest)))))
      = some ([(ascii "Action", JSON.string u.Action),
          (ascii "Data", JSON.object (u.Data.entries.map (fun x => (x.1, JSON.string x.2))))],
          rest) := by
  obtain ⟨f1, rfl⟩ : ∃ f1, f = f1 + 2 := ⟨f - 2, by omega⟩
  have hA : parseString (ascii "Action" ++ 0x22 :: 0x3A :: (encodeString u.Action
      ++ 0x2C :: 0x22 :: (ascii "Data" ++ 0x22 :: 0x3A :: (jsonMarshalMap u.Data
      ++ 0x7D :: rest))))
      = some (ascii "Action", 0x3A :: (encodeString u.Action
      ++ 0x2C :: 0x22 :: (ascii "Data" ++ 0x22 :: 0x3A :: (jsonMarshalMap u.Data
      ++ 0x7D :: rest)))) :=
    parseString_encodeString (ascii "Action") _ (by decide)
  have hD : parseString (ascii "Data" ++ 0x22 :: 0x3A :: (jsonMarshalMap u.Data
      ++ 0x7D :: rest))
      = some (ascii "Data", 0x3A :: (jsonMarshalMap u.Data ++ 0x7D :: rest)) :=
    parseString_encodeString (ascii "Data") _ (by decide)
  rw [parseMembers, skipSpace_of_not_space _ _ (by decide)]
  simp only
  rw [if_pos (by decide), hA]
  simp only
  rw [skipSpace_of_not_space _ _ (by decide)]
  simp only
  rw [if_pos (by decide), parseValue_encodeString _ _ _ _ ha]
  simp only
  rw [skipSpace_of_not_space _ _ (by decide)]
  simp only
  rw [if_pos (by decide), parseMembers, skipSpace_of_not_space _ _ (by decide)]
  simp only
  rw [if_pos (by decide), hD]
  simp only
  rw [skipSpace_of_not_space _ _ (by decide)]
  simp only
  rw [if_pos (by decide), parseValue_jsonMarshalMap u.Data f1 d _ hu (by omega) hd]
  simp only
  rw [skipSpace_of_not_space _ _ (by decide)]
  simp only
  rw [if_neg (by decide), if_pos (by decide)]
  rfl

theorem encodeUpdate_eq (u : update) (rest : GoString) :
    encodeUpdate u ++ rest
      = 0x7B :: 0x22 :: (ascii "Action" ++ 0x22 :: 0x3A :: (encodeString u.Action
          ++ 0x2C :: 0x22 :: (ascii "Data" ++ 0x22 :: 0x3A :: (jsonMarshalMap u.Data
          ++ 0x7D :: rest)))) := by
  have h1 : ascii "\x7b\"Action\":" = 0x7B :: 0x22 :: (ascii "Action" ++ [0x22, 0x3A]) := by
    decide
  have h2 : ascii ",\"Data\":" = 0x2C :: 0x22 :: (ascii "Data" ++ [0x22, 0x3A]) := by decide
  have h3 : ascii "\x7d" = [0x7D] := by decide
  unfold encodeUpdate
  rw [h1, h2, h3]
  simp only [List.cons_append, List.append_assoc, List.nil_append]

theorem jsonUnmarshalUpdates_single (u : update) (ha : validUTF8 u.Action = true)
    (hu : u.Data.utf8) :
    jsonUnmarshalUpdates (jsonMarshalUpdates [u]) = some [some u] := by
  have hlenM : u.Data.entries.length + 2 ≤ (jsonMarshalMap u.Data).length := by
    have := length_encodeEntries u.Data.entries
    simp only [jsonMarshalMap, List.length_cons, List.length_append, List.length_nil]
    omega
  have hshape : jsonMarshalUpdates [u]
      = 0x5B :: 0x7B :: 0x22 :: (ascii "Action" ++ 0x22 :: 0x3A :: (encodeString u.Action
          ++ 0x2C :: 0x22 :: (ascii "Data" ++ 0x22 :: 0x3A :: (jsonMarshalMap u.Data
          ++ 0x7D :: [0x5D])))) := by
    unfold jsonMarshalUpdates
    rw [encodeUpdates, encodeUpdate_eq]
  have hlen : u.Data.entries.length + 8 ≤ (jsonMarshalUpdates [u]).length := by
    rw [hshape]
    simp only [List.length_cons, List.length_append]
    omega
  obtain ⟨f, hf⟩ : ∃ f, (jsonMarshalUpdates [u]).length = f + 4 :=
    ⟨(jsonMarshalUpdates [u]).length - 4, by omega⟩
  unfold jsonUnmarshalUpdates parseJSON
  rw [hf, hshape, parseValue, skipSpace_of_not_space _ _ (by decide)]
  simp only
  rw [if_neg (by decide), if_pos (by decide), if_neg (by decide),
    skipSpace_of_not_space _ _ (by decide)]
  simp only
  rw [if_neg (by decide), parseElems, parseValue, skipSpace_of_not_space _ _ (by decide)]
  simp only
  rw [if_neg (by decide), if_neg (by decide), if_pos (by decide), if_neg (by decide),
    skipSpace_of_not_space _ _ (by decide)]
  simp only
  rw [if_neg (by decide), parseMembers_update u (f + 1) (0 + 1 + 1) _ ha hu (by omega) (by decide)]
  simp only [Option.map_some']
  rw [skipSpace_of_not_space _ _ (by decide)]
  simp only
  rw [if_neg (by decide), if_pos (by decide)]
  have hs : skipSpace ([] : GoString) = [] := rfl
  simp only [Option.map_some', hs, Option.bind, decodeUpdates, decodeElems, decodeElem,
    decodeStruct, decodeField]
  have e1 : equalFold (ascii "Action") (ascii "Action") = true := by decide
  have e2 : equalFold (ascii "Action") (ascii "Data") = false := by decide
  have e3 : equalFold (ascii "Data") (ascii "Data") = true := by decide
  simp only [e1, e2, e3, if_true, decodeStringInto, Option.map_some', decodeMapInto,
    Bool.false_eq_true, if_false]
  rw [decodeMembersInto_strings, foldl_set_entries]
  rfl

/-! ## The order in which `range` visits a map

Go visits the keys of a map in an unspecified order.  The loops of `NotifyMsg` and
`MergeRemoteState` are embedded visiting them in key order; the two facts below show
that every other order of visit gives the same mapping. -/

theorem lookupEntry_eq_some_iff {l : List Entry} (hl : l.Pairwise (fun a b => a.1 ≠ b.1))
    (k v : GoString) : lookupEntry k l = some v ↔ (k, v) ∈ l := by
  induction l with
  | nil => simp [lookupEntry]
  | cons hd tl ih =>
    obtain ⟨k1, v1⟩ := hd
    obtain ⟨hhd, htl⟩ := List.pairwise_cons.1 hl
    by_cases hk : k = k1
    · subst hk
      simp only [lookupEntry, if_true, Option.some.injEq, List.mem_cons, Prod.mk.injEq,
        true_and]
      constructor
      · intro h; exact Or.inl h.symm
      · rintro (h | h)
        · exact h.symm
        · exact absurd rfl (hhd (k, v) h)
    · simp only [lookupEntry, hk, if_false, List.mem_cons, Prod.mk.injEq, false_and,
        false_or]
      exact ih htl

theorem lookupEntry_perm {l1 l2 : List Entry} (h1 : l1.Pairwise (fun a b => a.1 ≠ b.1))
    (hp : l1.Perm l2) (k : GoString) : lookupEntry k l1 = lookupEntry k l2 := by
  have h2 : l2.Pairwise (fun a b => a.1 ≠ b.1) :=
    (hp.pairwise_iff (fun {a b} (h : a.1 ≠ b.1) => (Ne.symm h : b.1 ≠ a.1))).1 h1
  cases e1 : lookupEntry k l1 with
  | some v =>
    exact ((lookupEntry_eq_some_iff h2 k v).2
      (hp.mem_iff.1 ((lookupEntry_eq_some_iff h1 k v).1 e1))).symm
  | none =>
    cases e2 : lookupEntry k l2 with
    | none => rfl
    | some v =>
      have := (lookupEntry_eq_some_iff h1 k v).2
        (hp.mem_iff.2 ((lookupEntry_eq_some_iff h2 k v).1 e2))
      rw [e1] at this
      exact absurd this (by simp)

theorem get_foldl_applyEntry_distinct (action : GoString) (k : GoString) (l : List Entry)
    (hl : l.Pairwise (fun a b => a.1 ≠ b.1)) (s : GoMap) :
    (l.foldl (applyEntry action) s).get k =
      if action = ascii "add" then
        match lookupEntry k l with
        | some v => some v
        | none => s.get k
      else if action = ascii "del" then
        match lookupEntry k l with
        | some _ => none
        | none => s.get k
      else s.get k := by
  induction l generalizing s with
  | nil => simp [lookupEntry]
  | cons hd tl ih =>
    obtain ⟨k1, v1⟩ := hd
    obtain ⟨hhd, htl⟩ := List.pairwise_cons.1 hl
    rw [List.foldl_cons, ih htl]
    by_cases hk : k = k1
    · subst hk
      have hnone : lookupEntry k tl = none := by
        cases e : lookupEntry k tl with
        | none => rfl
        | some v => exact absurd rfl (hhd (k, v) ((lookupEntry_eq_some_iff htl k v).1 e))
      simp only [hnone, lookupEntry, if_true, applyEntry]
      split_ifs with h1 h2
      · exact GoMap.get_set_self _ _ _
      · exact GoMap.get_delete_self _ _
      · rfl
    · simp only [lookupEntry, hk, if_false, applyEntry]
      split_ifs with h1 h2
      · rw [GoMap.get_set_ne _ _ hk]
      · rw [GoMap.get_delete_ne _ hk]
      · rfl

theorem keysAscending_distinct {l : List Entry} (h : keysAscending l) :
    l.Pairwise (fun a b => a.1 ≠ b.1) :=
  List.Pairwise.imp (fun hab => strLess_ne hab) h

/-- The inner loop of `NotifyMsg` gives the same mapping whatever the order `visit` in
which `range u.Data` yields the entries. -/
theorem applyData_visit_order (s : GoMap) (u : update) (visit : List Entry)
    (hp : visit.Perm u.Data.entries) :
    visit.foldl (applyEntry u.Action) s = applyData s u := by
  have hd := keysAscending_distinct u.Data.ascending
  have hv : visit.Pairwise (fun a b => a.1 ≠ b.1) :=
    (hp.pairwise_iff (fun {a b} (h : a.1 ≠ b.1) => (Ne.symm h : b.1 ≠ a.1))).2 hd
  apply GoMap.ext
  intro k
  unfold applyData
  rw [get_foldl_applyEntry_distinct _ _ _ hv, get_foldl_applyEntry_distinct _ _ _ hd,
    lookupEntry_perm hv hp k]

/-- The loop of `MergeRemoteState` gives the same mapping whatever the order `visit` in
which `range m` yields the entries. -/
theorem mergeEntries_visit_order (s m : GoMap) (visit : List Entry)
    (hp : visit.Perm m.entries) :
    visit.foldl (fun acc e => acc.set e.1 e.2) s = mergeEntries s m := by
  have hadd : ∀ l : List Entry, l.foldl (fun acc e => acc.set e.1 e.2) s
      = l.foldl (applyEntry (ascii "add")) s := by
    intro l
    congr 1
  unfold mergeEntries
  rw [hadd, hadd]
  exact applyData_visit_order s ⟨ascii "add", m⟩ visit hp

/-! ## Fuel

The readers and writers above that recurse on a fuel argument are started with a
fuel computed from the length of their input.  The facts below show that this fuel is
enough: any larger fuel gives the same result. -/

theorem decodeRune_size_pos (b : Byte) (t : GoString) : 1 ≤ (decodeRune (b :: t)).2 := by
  by_cases hb : b.val < 0x80
  · simp [decodeRune, hb]
  · rcases decodeRune_cases b t (by omega) with h | ⟨chunk, tail, hr⟩
    · rw [h]
    · have := hr.two
      rw [hr.len] at this
      omega

theorem appendStringFuel_fuel (n m : Nat) (s : GoString) (hn : s.length ≤ n)
    (hm : s.length ≤ m) : appendStringFuel n s = appendStringFuel m s := by
  induction n generalizing m s with
  | zero =>
    cases s with
    | nil => cases m <;> rfl
    | cons b t => simp at hn
  | succ n ih =>
    cases s with
    | nil => cases m <;> rfl
    | cons b t =>
      obtain ⟨m1, rfl⟩ : ∃ m1, m = m1 + 1 := ⟨m - 1, by simp at hm; omega⟩
      simp only [List.length_cons] at hn hm
      have hpos := decodeRune_size_pos b t
      have hdrop : (List.drop (decodeRune (b :: t)).2 (b :: t)).length ≤ t.length := by
        simp only [List.length_drop, List.length_cons]
        omega
      rw [appendStringFuel, appendStringFuel]
      simp only [ih m1 t (by omega) (by omega),
        ih m1 (List.drop (decodeRune (b :: t)).2 (b :: t)) (by omega) (by omega)]

theorem validUTF8Fuel_fuel (n m : Nat) (s : GoString) (hn : s.length ≤ n)
    (hm : s.length ≤ m) : validUTF8Fuel n s = validUTF8Fuel m s := by
  induction n generalizing m s with
  | zero =>
    cases s with
    | nil => cases m <;> rfl
    | cons b t => simp at hn
  | succ n ih =>
    cases s with
    | nil => cases m <;> rfl
    | cons b t =>
      obtain ⟨m1, rfl⟩ : ∃ m1, m = m1 + 1 := ⟨m - 1, by simp at hm; omega⟩
      simp only [List.length_cons] at hn hm
      have hpos := decodeRune_size_pos b t
      have hdrop : (List.drop (decodeRune (b :: t)).2 (b :: t)).length ≤ t.length := by
        simp only [List.length_drop, List.length_cons]
        omega
      rw [validUTF8Fuel, validUTF8Fuel]
      simp only [ih m1 t (by omega) (by omega),
        ih m1 (List.drop (decodeRune (b :: t)).2 (b :: t)) (by omega) (by omega)]

theorem unquoteFuel_fuel (f g : Nat) (body : GoString) (hf : body.length < f)
    (hg : body.length < g) : unquoteFuel f body = unquoteFuel g body := by
  induction f generalizing g body with
  | zero => omega
  | succ f ih =>
    obtain ⟨g1, rfl⟩ : ∃ g1, g = g1 + 1 := ⟨g - 1, by omega⟩
    cases body with
    | nil => rw [unquoteFuel_nil, unquoteFuel_nil]
    | cons c rest =>
      simp only [List.length_cons] at hf hg
      have hpos := decodeRune_size_pos c rest
      have key : ∀ t : GoString, t.length ≤ rest.length →
          unquoteFuel f t = unquoteFuel g1 t :=
        fun t ht => ih g1 t (by omega) (by omega)
      have h5 : (List.drop 5 rest).length ≤ rest.length := by
        simp only [List.length_drop]; omega
      have h11 : (List.drop 11 rest).length ≤ rest.length := by
        simp only [List.length_drop]; omega
      have hd : (List.drop (decodeRune (c :: rest)).2 (c :: rest)).length ≤ rest.length := by
        simp only [List.length_drop, List.length_cons]
        omega
      rw [unquoteFuel_cons, unquoteFuel_cons]
      simp only [key _ h5, key _ h11, key _ hd, key rest le_rfl]
      cases rest with
      | nil => rfl
      | cons e rest1 =>
        have h1 : rest1.length ≤ (e :: rest1).length := by simp
        simp only [key rest1 h1]

theorem skipSpace_length (inp : GoString) : (skipSpace inp).length ≤ inp.length := by
  induction inp with
  | nil => simp [skipSpace]
  | cons c t ih =>
    rw [skipSpace]
    split_ifs
    · simp only [List.length_cons]; omega
    · exact le_rfl

theorem skipDigits_length (inp : GoString) : (skipDigits inp).length ≤ inp.length := by
  induction inp with
  | nil => simp [skipDigits]
  | cons c t ih =>
    rw [skipDigits]
    split_ifs
    · simp only [List.length_cons]; omega
    · exact le_rfl

theorem scanStringLit_length (n : Nat) (inp : GoString) (hn : inp.length ≤ n)
    (r : GoString × GoString) (h : scanStringLit inp = some r) : r.2.length < inp.length := by
  induction n generalizing inp r with
  | zero =>
    cases inp with
    | nil => simp [scanStringLit] at h
    | cons c t => simp at hn
  | succ n ih =>
    cases inp with
    | nil => simp [scanStringLit] at h
    | cons c t =>
      simp only [List.length_cons] at hn
      rw [scanStringLit_cons] at h
      split_ifs at h with h1 h2 h3
      · simp only [Option.some.injEq] at h
        subst h
        simp
      · cases t with
        | nil => simp at h
        | cons e t1 =>
          simp only at h
          split_ifs at h with h4 h5
          · obtain ⟨r1, hr1, heq⟩ := Option.map_eq_some'.1 h
            have := ih t1 (by simp only [List.length_cons] at hn; omega) r1 hr1
            subst heq
            simp only [List.length_cons]
            omega
          · match t1, h with
            | a :: b :: c1 :: d :: t2, h =>
              simp only at h
              split_ifs at h with h6
              obtain ⟨r1, hr1, heq⟩ := Option.map_eq_some'.1 h
              have := ih t2 (by simp only [List.length_cons] at hn; omega) r1 hr1
              subst heq
              simp only [List.length_cons]
              omega
            | [], h => simp at h
            | [_], h => simp at h
            | [_, _], h => simp at h
            | [_, _, _], h => simp at h
      · obtain ⟨r1, hr1, heq⟩ := Option.map_eq_some'.1 h
        have := ih t (by omega) r1 hr1
        subst heq
        simp only [List.length_cons]
        omega

theorem parseString_length (inp : GoString) (r : GoString × GoString)
    (h : parseString inp = some r) : r.2.length < inp.length := by
  unfold parseString at h
  cases hs : scanStringLit inp with
  | none => rw [hs] at h; simp at h
  | some p =>
    obtain ⟨body, rest⟩ := p
    rw [hs] at h
    simp only at h
    obtain ⟨s, _, heq⟩ := Option.map_eq_some'.1 h
    subst heq
    exact scanStringLit_length inp.length inp le_rfl (body, rest) hs

theorem expectBytes_length (lit inp r : GoString) (h : expectBytes lit inp = some r) :
    r.length ≤ inp.length := by
  induction lit generalizing inp with
  | nil =>
    simp only [expectBytes, Option.some.injEq] at h
    subst h
    exact le_rfl
  | cons l lit ih =>
    cases inp with
    | nil => simp [expectBytes] at h
    | cons c t =>
      rw [expectBytes] at h
      split_ifs at h
      have := ih t h
      simp only [List.length_cons]
      omega

theorem scanExp_length (inp r : GoString) (h : scanExp inp = some r) :
    r.length ≤ inp.length := by
  unfold scanExp at h
  cases inp with
  | nil => simp at h
  | cons c t =>
    simp only at h
    split_ifs at h with h1
    · cases t with
      | nil => simp at h
      | cons d t1 =>
        simp only at h
        split_ifs at h
        simp only [Option.some.injEq] at h
        subst h
        have := skipDigits_length t1
        simp only [List.length_cons]
        omega
    · simp only at h
      split_ifs at h
      simp only [Option.some.injEq] at h
      subst h
      have := skipDigits_length t
      simp only [List.length_cons]
      omega

theorem scanFracExp_length (inp r : GoString) (h : scanFracExp inp = some r) :
    r.length ≤ inp.length := by
  unfold scanFracExp at h
  cases inp with
  | nil =>
    simp only [Option.some.injEq] at h
    subst h
    exact le_rfl
  | cons c t =>
    simp only at h
    split_ifs at h with h1 h2
    · cases t with
      | nil => simp at h
      | cons d t1 =>
        simp only at h
        split_ifs at h
        have hsd := skipDigits_length t1
        cases hk : skipDigits t1 with
        | nil =>
          rw [hk] at h
          simp only [Option.some.injEq] at h
          subst h
          simp
        | cons e t2 =>
          rw [hk] at h hsd
          simp only at h
          simp only [List.length_cons] at hsd ⊢
          split_ifs at h
          · have := scanExp_length _ _ h
            omega
          · simp only [Option.some.injEq] at h
            subst h
            simp only [List.length_cons]
            omega
    · have := scanExp_length _ _ h
      simp only [List.length_cons]
      omega
    · simp only [Option.some.injEq] at h
      subst h
      exact le_rfl

theorem scanNumber_length (c : Byte) (rest r : GoString) (h : scanNumber c rest = some r) :
    r.length ≤ rest.length := by
  unfold scanNumber at h
  split_ifs at h with h1 h2 h3
  · cases rest with
    | nil => simp at h
    | cons d t =>
      simp only at h
      split_ifs at h
      · have := scanFracExp_length _ _ h
        simp only [List.length_cons]
        omega
      · have := scanFracExp_length _ _ h
        have := skipDigits_length t
        simp only [List.length_cons]
        omega
  · exact scanFracExp_length _ _ h
  · have := scanFracExp_length _ _ h
    have := skipDigits_length rest
    omega

theorem skipSpace_cons_length {inp : GoString} {c : Byte} {rest : GoString}
    (h : skipSpace inp = c :: rest) : rest.length < inp.length := by
  have := skipSpace_length inp
  rw [h] at this
  simp only [List.length_cons] at this
  omega

/-- Fuel suffices once it covers the bytes a reader consumes: a result obtained with any
fuel is obtained with every fuel from the number of consumed bytes on. -/
theorem parse_fuel (f : Nat) :
    (∀ d inp r, parseValue f d inp = some r →
      r.2.length < inp.length ∧
        ∀ g, inp.length - r.2.length ≤ g → parseValue g d inp = some r) ∧
    (∀ d inp r, parseElems f d inp = some r →
      r.2.length < inp.length ∧
        ∀ g, inp.length - r.2.length ≤ g → parseElems g d inp = some r) ∧
    (∀ d inp r, parseMembers f d inp = some r →
      r.2.length < inp.length ∧
        ∀ g, inp.length - r.2.length ≤ g → parseMembers g d inp = some r) := by
  induction f with
  | zero =>
    refine ⟨?_, ?_, ?_⟩
    · intro d inp r h; rw [parseValue] at h; exact absurd h (by simp)
    · intro d inp r h; rw [parseElems] at h; exact absurd h (by simp)
    · intro d inp r h; rw [parseMembers] at h; exact absurd h (by simp)
  | succ f ih =>
    obtain ⟨ihV, ihE, ihM⟩ := ih
    refine ⟨?_, ?_, ?_⟩
    · intro d inp r h
      rw [parseValue] at h
      cases hs : skipSpace inp with
      | nil => rw [hs] at h; exact absurd h (by simp)
      | cons c rest =>
        rw [hs] at h
        simp only at h
        have hlen := skipSpace_cons_length hs
        by_cases h1 : c.val = 0x22
        · rw [if_pos h1] at h
          obtain ⟨r1, hr1, heq⟩ := Option.map_eq_some'.1 h
          have hl := parseString_length _ _ hr1
          subst heq
          refine ⟨by simp only; omega, ?_⟩
          intro g hg
          obtain ⟨g1, rfl⟩ : ∃ g1, g = g1 + 1 := ⟨g - 1, by simp only at hg; omega⟩
          rw [parseValue, hs]
          simp only
          rw [if_pos h1, hr1]
          rfl
        · rw [if_neg h1] at h
          by_cases h2 : c.val = 0x5B
          · rw [if_pos h2] at h
            by_cases hdep : maxNestingDepth ≤ d
            · rw [if_pos hdep] at h; exact absurd h (by simp)
            · rw [if_neg hdep] at h
              cases hs2 : skipSpace rest with
              | nil => rw [hs2] at h; exact absurd h (by simp)
              | cons d0 rest1 =>
                rw [hs2] at h
                simp only at h
                have hlen2 := skipSpace_cons_length hs2
                by_cases h3 : d0.val = 0x5D
                · rw [if_pos h3] at h
                  simp only [Option.some.injEq] at h
                  subst h
                  refine ⟨by simp only; omega, ?_⟩
                  intro g hg
                  obtain ⟨g1, rfl⟩ : ∃ g1, g = g1 + 1 :=
                    ⟨g - 1, by simp only at hg; omega⟩
                  rw [parseValue, hs]
                  simp only
                  rw [if_neg h1, if_pos h2, if_neg hdep, hs2]
                  simp only
                  rw [if_pos h3]
                · rw [if_neg h3] at h
                  obtain ⟨r1, hr1, heq⟩ := Option.map_eq_some'.1 h
                  obtain ⟨hl, hfuel⟩ := ihE _ _ _ hr1
                  subst heq
                  simp only [List.length_cons] at hl hfuel
                  refine ⟨by simp only; omega, ?_⟩
                  intro g hg
                  obtain ⟨g1, rfl⟩ : ∃ g1, g = g1 + 1 :=
                    ⟨g - 1, by simp only at hg; omega⟩
                  rw [parseValue, hs]
                  simp only
                  rw [if_neg h1, if_pos h2, if_neg hdep, hs2]
                  simp only
                  rw [if_neg h3, hfuel g1 (by simp only at hg; omega)]
                  rfl
          · rw [if_neg h2] at h
            by_cases h4 : c.val = 0x7B
            · rw [if_pos h4] at h
              by_cases hdep : maxNestingDepth ≤ d
              · rw [if_pos hdep] at h; exact absurd h (by simp)
              · rw [if_neg hdep] at h
                cases hs2 : skipSpace rest with
                | nil => rw [hs2] at h; exact absurd h (by simp)
                | cons d0 rest1 =>
                  rw [hs2] at h
                  simp only at h
                  have hlen2 := skipSpace_cons_length hs2
                  by_cases h3 : d0.val = 0x7D
                  · rw [if_pos h3] at h
                    simp only [Option.some.injEq] at h
                    subst h
                    refine ⟨by simp only; omega, ?_⟩
                    intro g hg
                    obtain ⟨g1, rfl⟩ : ∃ g1, g = g1 + 1 :=
                      ⟨g - 1, by simp only at hg; omega⟩
                    rw [parseValue, hs]
                    simp only
                    rw [if_neg h1, if_neg h2, if_pos h4, if_neg hdep, hs2]
                    simp only
                    rw [if_pos h3]
                  · rw [if_neg h3] at h
                    obtain ⟨r1, hr1, heq⟩ := Option.map_eq_some'.1 h
                    obtain ⟨hl, hfuel⟩ := ihM _ _ _ hr1
                    subst heq
                    simp only [List.length_cons] at hl hfuel
                    refine ⟨by simp only; omega, ?_⟩
                    intro g hg
                    obtain ⟨g1, rfl⟩ : ∃ g1, g = g1 + 1 :=
                      ⟨g - 1, by simp only at hg; omega⟩
                    rw [parseValue, hs]
                    simp only
                    rw [if_neg h1, if_neg h2, if_pos h4, if_neg hdep, hs2]
                    simp only
                    rw [if_neg h3, hfuel g1 (by simp only at hg; omega)]
                    rfl
            · rw [if_neg h4] at h
              have hfin : ∀ g, 1 ≤ g → parseValue g d inp = some r := by
                intro g hg
                obtain ⟨g1, rfl⟩ : ∃ g1, g = g1 + 1 := ⟨g - 1, by omega⟩
                rw [parseValue, hs]
                simp only
                rw [if_neg h1, if_neg h2, if_neg h4]
                exact h
              have hl : r.2.length ≤ rest.length := by
                split_ifs at h
                · obtain ⟨r1, hr1, heq⟩ := Option.map_eq_some'.1 h
                  subst heq
                  exact expectBytes_length _ _ _ hr1
                · obtain ⟨r1, hr1, heq⟩ := Option.map_eq_some'.1 h
                  subst heq
                  exact expectBytes_length _ _ _ hr1
                · obtain ⟨r1, hr1, heq⟩ := Option.map_eq_some'.1 h
                  subst heq
                  exact expectBytes_length _ _ _ hr1
                · obtain ⟨r1, hr1, heq⟩ := Option.map_eq_some'.1 h
                  subst heq
                  exact scanNumber_length _ _ _ hr1
              exact ⟨by omega, fun g hg => hfin g (by omega)⟩
    · intro d inp r h
      rw [parseElems] at h
      cases hv : parseValue f d inp with
      | none => rw [hv] at h; exact absurd h (by simp)
      | some p =>
        obtain ⟨v, rest⟩ := p
        rw [hv] at h
        simp only at h
        obtain ⟨hlv, hfv⟩ := ihV _ _ _ hv
        simp only at hlv hfv
        cases hs : skipSpace rest with
        | nil => rw [hs] at h; exact absurd h (by simp)
        | cons c rest1 =>
          rw [hs] at h
          simp only at h
          have hlen := skipSpace_cons_length hs
          by_cases h1 : c.val = 0x2C
          · rw [if_pos h1] at h
            obtain ⟨r1, hr1, heq⟩ := Option.map_eq_some'.1 h
            obtain ⟨hl, hfuel⟩ := ihE _ _ _ hr1
            subst heq
            refine ⟨by simp only; omega, ?_⟩
            intro g hg
            obtain ⟨g1, rfl⟩ : ∃ g1, g = g1 + 1 := ⟨g - 1, by simp only at hg; omega⟩
            rw [parseElems, hfv g1 (by simp only at hg; omega)]
            simp only
            rw [hs]
            simp only
            rw [if_pos h1, hfuel g1 (by simp only at hg; omega)]
            rfl
          · rw [if_neg h1] at h
            by_cases h2 : c.val = 0x5D
            · rw [if_pos h2] at h
              simp only [Option.some.injEq] at h
              subst h
              refine ⟨by simp only; omega, ?_⟩
              intro g hg
              obtain ⟨g1, rfl⟩ : ∃ g1, g = g1 + 1 := ⟨g - 1, by simp only at hg; omega⟩
              rw [parseElems, hfv g1 (by simp only at hg; omega)]
              simp only
              rw [hs]
              simp only
              rw [if_neg h1, if_pos h2]
            · rw [if_neg h2] at h; exact absurd h (by simp)
    · intro d inp r h
      rw [parseMembers] at h
      cases hs0 : skipSpace inp with
      | nil => rw [hs0] at h; exact absurd h (by simp)
      | cons q rest =>
        rw [hs0] at h
        simp only at h
        have hlen0 := skipSpace_cons_length hs0
        by_cases hq : q.val = 0x22
        · rw [if_pos hq] at h
          cases hk : parseString rest with
          | none => rw [hk] at h; exact absurd h (by simp)
          | some pk =>
            obtain ⟨key, rest1⟩ := pk
            rw [hk] at h
            simp only at h
            have hlk := parseString_length _ _ hk
            simp only at hlk
            cases hs1 : skipSpace rest1 with
            | nil => rw [hs1] at h; exact absurd h (by simp)
            | cons c rest2 =>
              rw [hs1] at h
              simp only at h
              have hlen1 := skipSpace_cons_length hs1
              by_cases hc : c.val = 0x3A
              · rw [if_pos hc] at h
                cases hv : parseValue f d rest2 with
                | none => rw [hv] at h; exact absurd h (by simp)
                | some p =>
                  obtain ⟨v, rest3⟩ := p
                  rw [hv] at h
                  simp only at h
                  obtain ⟨hlv, hfv⟩ := ihV _ _ _ hv
                  simp only at hlv hfv
                  cases hs3 : skipSpace rest3 with
                  | nil => rw [hs3] at h; exact absurd h (by simp)
                  | cons e rest4 =>
                    rw [hs3] at h
                    simp only at h
                    have hlen3 := skipSpace_cons_length hs3
                    by_cases h1 : e.val = 0x2C
                    · rw [if_pos h1] at h
                      obtain ⟨r1, hr1, heq⟩ := Option.map_eq_some'.1 h
                      obtain ⟨hl, hfuel⟩ := ihM _ _ _ hr1
                      subst heq
                      refine ⟨by simp only; omega, ?_⟩
                      intro g hg
                      obtain ⟨g1, rfl⟩ : ∃ g1, g = g1 + 1 :=
                        ⟨g - 1, by simp only at hg; omega⟩
                      rw [parseMembers, hs0]
                      simp only
                      rw [if_pos hq, hk]
                      simp only
                      rw [hs1]
                      simp only
                      rw [if_pos hc, hfv g1 (by simp only at hg; omega)]
                      simp only
                      rw [hs3]
                      simp only
                      rw [if_pos h1, hfuel g1 (by simp only at hg; omega)]
                      rfl
                    · rw [if_neg h1] at h
                      by_cases h2 : e.val = 0x7D
                      · rw [if_pos h2] at h
                        simp only [Option.some.injEq] at h
                        subst h
                        refine ⟨by simp only; omega, ?_⟩
                        intro g hg
                        obtain ⟨g1, rfl⟩ : ∃ g1, g = g1 + 1 :=
                          ⟨g - 1, by simp only at hg; omega⟩
                        rw [parseMembers, hs0]
                        simp only
                        rw [if_pos hq, hk]
                        simp only
                        rw [hs1]
                        simp only
                        rw [if_pos hc, hfv g1 (by simp only at hg; omega)]
                        simp only
                        rw [hs3]
                        simp only
                        rw [if_neg h1, if_pos h2]
                      · rw [if_neg h2] at h; exact absurd h (by simp)
              · rw [if_neg hc] at h; exact absurd h (by simp)
        · rw [if_neg hq] at h; exact absurd h (by simp)

/-- The fuel `parseJSON` starts with is enough: with any larger fuel the reader returns
the same value, or fails as well. -/
theorem parseValue_fuel (g d : Nat) (inp : GoString) (hg : inp.length < g) :
    parseValue g d inp = parseValue (inp.length + 1) d inp := by
  cases h1 : parseValue (inp.length + 1) d inp with
  | some r =>
    obtain ⟨hl, hf⟩ := (parse_fuel _).1 d inp r h1
    exact hf g (by omega)
  | none =>
    cases h2 : parseValue g d inp with
    | none => rfl
    | some r =>
      obtain ⟨hl, hf⟩ := (parse_fuel _).1 d inp r h2
      rw [hf (inp.length + 1) (by omega)] at h1
      exact absurd h1 (by simp)

/-- The fuel `unquote` starts with is enough. -/
theorem unquote_fuel (g : Nat) (body : GoString) (hg : body.length < g) :
    unquoteFuel g body = unquote body :=
  unquoteFuel_fuel g _ body hg (Nat.lt_succ_self _)

/-- The fuel `encodeString` starts with is enough. -/
theorem encodeString_fuel (n : Nat) (s : GoString) (hn : s.length ≤ n) :
    0x22 :: (appendStringFuel n s ++ [0x22]) = encodeString s := by
  unfold encodeString
  rw [appendStringFuel_fuel n s.length s hn le_rfl]

/-- The fuel `validUTF8` starts with is enough. -/
theorem validUTF8_fuel (n : Nat) (s : GoString) (hn : s.length ≤ n) :
    validUTF8Fuel n s = validUTF8 s :=
  validUTF8Fuel_fuel n s.length s hn le_rfl

/-! ## What `json.Unmarshal` stores is valid UTF-8 -/

theorem validUTF8_nil : validUTF8 [] = true := rfl

theorem utf8_set {m : GoMap} (hm : m.utf8) {k v : GoString} (hk : validUTF8 k = true)
    (hv : validUTF8 v = true) : (m.set k v).utf8 := by
  intro e he
  rcases mem_insertEntry he with h | h
  · subst h; exact ⟨hk, hv⟩
  · exact hm e h

theorem utf8_delete {m : GoMap} (hm : m.utf8) (k : GoString) : (m.delete k).utf8 :=
  fun e he => hm e (mem_eraseEntry he)

theorem utf8_applyData {s : GoMap} {u : update} (hs : s.utf8) (hu : u.Data.utf8) :
    (applyData s u).utf8 := by
  unfold applyData
  have key : ∀ (l : List Entry) (t : GoMap), utf8Entries l → t.utf8 →
      (l.foldl (applyEntry u.Action) t).utf8 := by
    intro l
    induction l with
    | nil => intro t _ ht; exact ht
    | cons e es ih =>
      intro t hl ht
      rw [List.foldl_cons]
      apply ih _ (fun x hx => hl x (List.mem_cons_of_mem _ hx))
      have he := hl e (List.mem_cons_self _ _)
      unfold applyEntry
      split_ifs
      · exact utf8_set ht he.1 he.2
      · exact utf8_delete ht _
      · exact ht
  exact key _ _ hu hs

theorem val_ofNat_byte (x : Nat) (h : x < 256) : (Fin.ofNat x : Byte).val = x := by
  simp only [Fin.ofNat]
  omega

theorem validUTF8_cons_ascii (c : Byte) (t : GoString) (hc : c.val < 0x80) :
    validUTF8 (c :: t) = validUTF8 t := by
  unfold validUTF8
  rw [List.length_cons, validUTF8Fuel, if_pos hc]

theorem validUTF8_append_rune (chunk t : GoString) (hr : RuneAt (chunk ++ t) chunk t) :
    validUTF8 (chunk ++ t) = validUTF8 t := by
  obtain ⟨c, cs, hchunk⟩ : ∃ c cs, chunk = c :: cs := by
    cases chunk with
    | nil => have := hr.two; simp at this
    | cons c cs => exact ⟨c, cs, rfl⟩
  have hc : 0x80 ≤ c.val := hr.high c (by rw [hchunk]; exact List.mem_cons_self _ _)
  have hlen := hr.len
  have htwo := hr.two
  subst hchunk
  have hdrop : List.drop (decodeRune (c :: cs ++ t)).2 (c :: cs ++ t) = t := by
    rw [← hlen, List.drop_left']
    rfl
  unfold validUTF8
  rw [List.cons_append, List.length_cons, validUTF8Fuel, if_neg (by omega)]
  simp only
  rw [← List.cons_append, if_neg (by rw [← hlen]; omega), hdrop]
  exact validUTF8Fuel_fuel _ _ t (by simp only [List.length_append, List.length_cons]; omega)
    le_rfl

theorem validUTF8_encodeRune_append (r : Nat) (t : GoString) :
    validUTF8 (encodeRune r ++ t) = validUTF8 t := by
  unfold encodeRune
  split_ifs with h1 h2 h3 h4
  · exact validUTF8_cons_ascii _ t (by rw [val_ofNat_byte _ (by omega)]; omega)
  · have e0 := val_ofNat_byte (0xC0 + r / 64) (by omega)
    have e1 := val_ofNat_byte (0x80 + r % 64) (by omega)
    exact validUTF8_append_rune _ t
      (runeAt_two _ _ t (by rw [e0]; omega) ((isCont_iff _).2 (by rw [e1]; omega)))
  · exact validUTF8_append_rune _ t
      (runeAt_three 0xEF 0xBF 0xBD t (by decide) (by decide))
  · have e0 := val_ofNat_byte (0xE0 + r / 4096) (by omega)
    have e1 := val_ofNat_byte (0x80 + r / 64 % 64) (by omega)
    have e2 := val_ofNat_byte (0x80 + r % 64) (by omega)
    refine validUTF8_append_rune _ t (runeAt_three _ _ _ t (by rw [e0]; omega) ⟨?_, ?_, ?_⟩)
    · unfold secondLo
      rw [e0, e1]
      split_ifs <;> omega
    · unfold secondHi
      rw [e0, e1]
      split_ifs <;> omega
    · exact (isCont_iff _).2 (by rw [e2]; omega)
  · have e0 := val_ofNat_byte (0xF0 + r / 262144) (by omega)
    have e1 := val_ofNat_byte (0x80 + r / 4096 % 64) (by omega)
    have e2 := val_ofNat_byte (0x80 + r / 64 % 64) (by omega)
    have e3 := val_ofNat_byte (0x80 + r % 64) (by omega)
    refine validUTF8_append_rune _ t
      (runeAt_four _ _ _ _ t (by rw [e0]; omega) ⟨?_, ?_, ?_, ?_⟩)
    · unfold secondLo
      rw [e0, e1]
      split_ifs <;> omega
    · unfold secondHi
      rw [e0, e1]
      split_ifs <;> omega
    · exact (isCont_iff _).2 (by rw [e2]; omega)
    · exact (isCont_iff _).2 (by rw [e3]; omega)

theorem validUTF8_unquoteFuel (f : Nat) (body s : GoString)
    (h : unquoteFuel f body = some s) : validUTF8 s = true := by
  induction f generalizing body s with
  | zero => rw [unquoteFuel] at h; exact absurd h (by simp)
  | succ f ih =>
    cases body with
    | nil =>
      rw [unquoteFuel_nil] at h
      simp only [Option.some.injEq] at h
      subst h
      rfl
    | cons c rest =>
      rw [unquoteFuel_cons] at h
      have hasc : ∀ (e : Byte) (t : GoString), e.val < 0x80 →
          (unquoteFuel f t).map (e :: ·) = some s → validUTF8 s = true := by
        intro e t he hm
        obtain ⟨s1, hs1, heq⟩ := Option.map_eq_some'.1 hm
        subst heq
        rw [validUTF8_cons_ascii e s1 he]
        exact ih t s1 hs1
      have hrune : ∀ (r : Nat) (t : GoString),
          (unquoteFuel f t).map (encodeRune r ++ ·) = some s → validUTF8 s = true := by
        intro r t hm
        obtain ⟨s1, hs1, heq⟩ := Option.map_eq_some'.1 hm
        subst heq
        rw [validUTF8_encodeRune_append r s1]
        exact ih t s1 hs1
      by_cases h1 : c.val = 0x5C
      · rw [if_pos h1] at h
        cases rest with
        | nil => exact absurd h (by simp)
        | cons e rest1 =>
          simp only at h
          by_cases a1 : e.val = 0x22 ∨ e.val = 0x5C ∨ e.val = 0x2F ∨ e.val = 0x27
          · rw [if_pos a1] at h
            exact hasc e rest1 (by omega) h
          · rw [if_neg a1] at h
            by_cases a2 : e.val = 0x62
            · rw [if_pos a2] at h
              exact hasc 0x08 rest1 (by decide) h
            · rw [if_neg a2] at h
              by_cases a3 : e.val = 0x66
              · rw [if_pos a3] at h
                exact hasc 0x0C rest1 (by decide) h
              · rw [if_neg a3] at h
                by_cases a4 : e.val = 0x6E
                · rw [if_pos a4] at h
                  exact hasc 0x0A rest1 (by decide) h
                · rw [if_neg a4] at h
                  by_cases a5 : e.val = 0x72
                  · rw [if_pos a5] at h
                    exact hasc 0x0D rest1 (by decide) h
                  · rw [if_neg a5] at h
                    by_cases a6 : e.val = 0x74
                    · rw [if_pos a6] at h
                      exact hasc 0x09 rest1 (by decide) h
                    · rw [if_neg a6] at h
                      by_cases a7 : e.val = 0x75
                      · rw [if_pos a7] at h
                        cases hg : getu4 (c :: e :: rest1) with
                        | none => rw [hg] at h; exact absurd h (by simp)
                        | some rr =>
                          rw [hg] at h
                          simp only at h
                          by_cases b1 : isSurrogate rr = true
                          · rw [if_pos b1] at h
                            by_cases b2 : utf16DecodeRune rr
                                (getu4 (List.drop 5 (e :: rest1))) ≠ RuneError
                            · rw [if_pos b2] at h
                              exact hrune _ (List.drop 11 (e :: rest1)) h
                            · rw [if_neg b2] at h
                              exact hrune RuneError (List.drop 5 (e :: rest1)) h
                          · rw [if_neg b1] at h
                            exact hrune rr (List.drop 5 (e :: rest1)) h
                      · rw [if_neg a7] at h
                        exact absurd h (by simp)
      · rw [if_neg h1] at h
        by_cases h2 : c.val = 0x22 ∨ c.val < 0x20
        · rw [if_pos h2] at h
          exact absurd h (by simp)
        · rw [if_neg h2] at h
          by_cases h3 : c.val < 0x80
          · rw [if_pos h3] at h
            exact hasc c rest h3 h
          · rw [if_neg h3] at h
            exact hrune _ _ h

theorem validUTF8_parseString (inp : GoString) (r : GoString × GoString)
    (h : parseString inp = some r) : validUTF8 r.1 = true := by
  unfold parseString at h
  cases hs : scanStringLit inp with
  | none => rw [hs] at h; exact absurd h (by simp)
  | some p =>
    obtain ⟨body, rest⟩ := p
    rw [hs] at h
    simp only at h
    obtain ⟨s, hs1, heq⟩ := Option.map_eq_some'.1 h
    subst heq
    exact validUTF8_unquoteFuel _ _ _ hs1

theorem parse_utf8 (f : Nat) :
    (∀ d inp r, parseValue f d inp = some r → utf8JSON r.1) ∧
    (∀ d inp r, parseElems f d inp = some r → ∀ v ∈ r.1, utf8JSON v) ∧
    (∀ d inp r, parseMembers f d inp = some r →
      (∀ kv ∈ r.1, validUTF8 kv.1 = true) ∧ (∀ kv ∈ r.1, utf8JSON kv.2)) := by
  induction f with
  | zero =>
    refine ⟨?_, ?_, ?_⟩
    · intro d inp r h; rw [parseValue] at h; exact absurd h (by simp)
    · intro d inp r h; rw [parseElems] at h; exact absurd h (by simp)
    · intro d inp r h; rw [parseMembers] at h; exact absurd h (by simp)
  | succ f ih =>
    obtain ⟨ihV, ihE, ihM⟩ := ih
    refine ⟨?_, ?_, ?_⟩
    · intro d inp r h
      rw [parseValue] at h
      cases hs : skipSpace inp with
      | nil => rw [hs] at h; exact absurd h (by simp)
      | cons c rest =>
        rw [hs] at h
        simp only at h
        by_cases h1 : c.val = 0x22
        · rw [if_pos h1] at h
          obtain ⟨r1, hr1, heq⟩ := Option.map_eq_some'.1 h
          subst heq
          exact utf8JSON.string (validUTF8_parseString _ _ hr1)
        · rw [if_neg h1] at h
          by_cases h2 : c.val = 0x5B
          · rw [if_pos h2] at h
            by_cases hdep : maxNestingDepth ≤ d
            · rw [if_pos hdep] at h; exact absurd h (by simp)
            · rw [if_neg hdep] at h
              cases hs2 : skipSpace rest with
              | nil => rw [hs2] at h; exact absurd h (by simp)
              | cons d0 rest1 =>
                rw [hs2] at h
                simp only at h
                by_cases h3 : d0.val = 0x5D
                · rw [if_pos h3] at h
                  simp only [Option.some.injEq] at h
                  subst h
                  exact utf8JSON.array (fun v hv => absurd hv (List.not_mem_nil _))
                · rw [if_neg h3] at h
                  obtain ⟨r1, hr1, heq⟩ := Option.map_eq_some'.1 h
                  subst heq
                  exact utf8JSON.array (ihE _ _ _ hr1)
          · rw [if_neg h2] at h
            by_cases h4 : c.val = 0x7B
            · rw [if_pos h4] at h
              by_cases hdep : maxNestingDepth ≤ d
              · rw [if_pos hdep] at h; exact absurd h (by simp)
              · rw [if_neg hdep] at h
                cases hs2 : skipSpace rest with
                | nil => rw [hs2] at h; exact absurd h (by simp)
                | cons d0 rest1 =>
                  rw [hs2] at h
                  simp only at h
                  by_cases h3 : d0.val = 0x7D
                  · rw [if_pos h3] at h
                    simp only [Option.some.injEq] at h
                    subst h
                    exact utf8JSON.object (fun v hv => absurd hv (List.not_mem_nil _))
                      (fun v hv => absurd hv (List.not_mem_nil _))
                  · rw [if_neg h3] at h
                    obtain ⟨r1, hr1, heq⟩ := Option.map_eq_some'.1 h
                    subst heq
                    exact utf8JSON.object (ihM _ _ _ hr1).1 (ihM _ _ _ hr1).2
            · rw [if_neg h4] at h
              split_ifs at h
              · obtain ⟨r1, hr1, heq⟩ := Option.map_eq_some'.1 h
                subst heq
                exact utf8JSON.null
              · obtain ⟨r1, hr1, heq⟩ := Option.map_eq_some'.1 h
                subst heq
                exact utf8JSON.bool true
              · obtain ⟨r1, hr1, heq⟩ := Option.map_eq_some'.1 h
                subst heq
                exact utf8JSON.bool false
              · obtain ⟨r1, hr1, heq⟩ := Option.map_eq_some'.1 h
                subst heq
                exact utf8JSON.number
    · intro d inp r h
      rw [parseElems] at h
      cases hv : parseValue f d inp with
      | none => rw [hv] at h; exact absurd h (by simp)
      | some p =>
        obtain ⟨v, rest⟩ := p
        rw [hv] at h
        simp only at h
        have hvv : utf8JSON v := ihV _ _ _ hv
        cases hs : skipSpace rest with
        | nil => rw [hs] at h; exact absurd h (by simp)
        | cons c rest1 =>
          rw [hs] at h
          simp only at h
          by_cases h1 : c.val = 0x2C
          · rw [if_pos h1] at h
            obtain ⟨r1, hr1, heq⟩ := Option.map_eq_some'.1 h
            subst heq
            intro x hx
            rcases List.mem_cons.1 hx with hx | hx
            · rw [hx]; exact hvv
            · exact ihE _ _ _ hr1 x hx
          · rw [if_neg h1] at h
            by_cases h2 : c.val = 0x5D
            · rw [if_pos h2] at h
              simp only [Option.some.injEq] at h
              subst h
              intro x hx
              rw [List.mem_singleton.1 hx]
              exact hvv
            · rw [if_neg h2] at h; exact absurd h (by simp)
    · intro d inp r h
      rw [parseMembers] at h
      cases hs0 : skipSpace inp with
      | nil => rw [hs0] at h; exact absurd h (by simp)
      | cons q rest =>
        rw [hs0] at h
        simp only at h
        by_cases hq : q.val = 0x22
        · rw [if_pos hq] at h
          cases hk : parseString rest with
          | none => rw [hk] at h; exact absurd h (by simp)
          | some pk =>
            obtain ⟨key, rest1⟩ := pk
            rw [hk] at h
            simp only at h
            have hkey : validUTF8 key = true := validUTF8_parseString _ _ hk
            cases hs1 : skipSpace rest1 with
            | nil => rw [hs1] at h; exact absurd h (by simp)
            | cons c rest2 =>
              rw [hs1] at h
              simp only at h
              by_cases hc : c.val = 0x3A
              · rw [if_pos hc] at h
                cases hv : parseValue f d rest2 with
                | none => rw [hv] at h; exact absurd h (by simp)
                | some p =>
                  obtain ⟨v, rest3⟩ := p
                  rw [hv] at h
                  simp only at h
                  have hvv : utf8JSON v := ihV _ _ _ hv
                  cases hs3 : skipSpace rest3 with
                  | nil => rw [hs3] at h; exact absurd h (by simp)
                  | cons e rest4 =>
                    rw [hs3] at h
                    simp only at h
                    by_cases h1 : e.val = 0x2C
                    · rw [if_pos h1] at h
                      obtain ⟨r1, hr1, heq⟩ := Option.map_eq_some'.1 h
                      subst heq
                      obtain ⟨m1, m2⟩ := ihM _ _ _ hr1
                      constructor
                      · intro x hx
                        rcases List.mem_cons.1 hx with hx | hx
                        · rw [hx]; exact hkey
                        · exact m1 x hx
                      · intro x hx
                        rcases List.mem_cons.1 hx with hx | hx
                        · rw [hx]; exact hvv
                        · exact m2 x hx
                    · rw [if_neg h1] at h
                      by_cases h2 : e.val = 0x7D
                      · rw [if_pos h2] at h
                        simp only [Option.some.injEq] at h
                        subst h
                        constructor
                        · intro x hx
                          rw [List.mem_singleton.1 hx]; exact hkey
                        · intro x hx
                          rw [List.mem_singleton.1 hx]; exact hvv
                      · rw [if_neg h2] at h; exact absurd h (by simp)
              · rw [if_neg hc] at h; exact absurd h (by simp)
        · rw [if_neg hq] at h; exact absurd h (by simp)

theorem utf8JSON_parseJSON (data : GoString) (v : JSON) (h : parseJSON data = some v) :
    utf8JSON v := by
  unfold parseJSON at h
  cases hp : parseValue (data.length + 1) 0 data with
  | none => rw [hp] at h; exact absurd h (by simp)
  | some p =>
    obtain ⟨v1, rest⟩ := p
    rw [hp] at h
    simp only at h
    cases hs : skipSpace rest with
    | nil =>
      rw [hs] at h
      simp only [Option.some.injEq] at h
      subst h
      exact (parse_utf8 _).1 _ _ _ hp
    | cons c t => rw [hs] at h; exact absurd h (by simp)

theorem utf8_empty : GoMap.empty.utf8 := fun _ h => absurd h (List.not_mem_nil _)

theorem validUTF8_decodeStringInto {cur s : GoString} {v : JSON}
    (hcur : validUTF8 cur = true) (hv : utf8JSON v) (h : decodeStringInto cur v = some s) :
    validUTF8 s = true := by
  cases hv with
  | string hs =>
    simp only [decodeStringInto, Option.some.injEq] at h
    subst h
    exact hs
  | null =>
    simp only [decodeStringInto, Option.some.injEq] at h
    subst h
    exact hcur
  | bool b => simp [decodeStringInto] at h
  | number => simp [decodeStringInto] at h
  | array _ => simp [decodeStringInto] at h
  | object _ _ => simp [decodeStringInto] at h

theorem utf8_decodeMembersInto (ms : List (GoString × JSON)) (cur m : GoMap)
    (hcur : cur.utf8) (hk : ∀ kv ∈ ms, validUTF8 kv.1 = true) (hv : ∀ kv ∈ ms, utf8JSON kv.2)
    (h : decodeMembersInto cur ms = some m) : m.utf8 := by
  induction ms generalizing cur with
  | nil =>
    simp only [decodeMembersInto, Option.some.injEq] at h
    subst h
    exact hcur
  | cons kv rest ih =>
    obtain ⟨k, v⟩ := kv
    rw [decodeMembersInto] at h
    cases hd : decodeStringInto [] v with
    | none => rw [hd] at h; exact absurd h (by simp)
    | some s =>
      rw [hd] at h
      simp only at h
      have hs : validUTF8 s = true :=
        validUTF8_decodeStringInto validUTF8_nil (hv (k, v) (List.mem_cons_self _ _)) hd
      exact ih (cur.set k s) (utf8_set hcur (hk (k, v) (List.mem_cons_self _ _)) hs)
        (fun x hx => hk x (List.mem_cons_of_mem _ hx))
        (fun x hx => hv x (List.mem_cons_of_mem _ hx)) h

theorem utf8_decodeMapInto {cur m : GoMap} {v : JSON} (hcur : cur.utf8) (hv : utf8JSON v)
    (h : decodeMapInto cur v = some m) : m.utf8 := by
  cases hv with
  | object hk hvv => exact utf8_decodeMembersInto _ cur m hcur hk hvv h
  | null =>
    simp only [decodeMapInto, Option.some.injEq] at h
    subst h
    exact utf8_empty
  | bool b => simp [decodeMapInto] at h
  | number => simp [decodeMapInto] at h
  | array _ => simp [decodeMapInto] at h
  | string _ => simp [decodeMapInto] at h

theorem utf8_decodeField {u u1 : update} {kv : GoString × JSON} (hu : u.utf8)
    (hv : utf8JSON kv.2) (h : decodeField u kv = some u1) : u1.utf8 := by
  unfold decodeField at h
  split_ifs at h
  · obtain ⟨a, ha, heq⟩ := Option.map_eq_some'.1 h
    subst heq
    exact ⟨validUTF8_decodeStringInto hu.1 hv ha, hu.2⟩
  · obtain ⟨m, hm, heq⟩ := Option.map_eq_some'.1 h
    subst heq
    exact ⟨hu.1, utf8_decodeMapInto hu.2 hv hm⟩
  · simp only [Option.some.injEq] at h
    subst h
    exact hu

theorem utf8_decodeStruct (ms : List (GoString × JSON)) (u u1 : update) (hu : u.utf8)
    (hv : ∀ kv ∈ ms, utf8JSON kv.2) (h : decodeStruct u ms = some u1) : u1.utf8 := by
  induction ms generalizing u with
  | nil =>
    simp only [decodeStruct, Option.some.injEq] at h
    subst h
    exact hu
  | cons kv rest ih =>
    rw [decodeStruct] at h
    cases hd : decodeField u kv with
    | none => rw [hd] at h; exact absurd h (by simp)
    | some u2 =>
      rw [hd] at h
      simp only at h
      exact ih u2 (utf8_decodeField hu (hv kv (List.mem_cons_self _ _)) hd)
        (fun x hx => hv x (List.mem_cons_of_mem _ hx)) h

theorem utf8_decodeElem {v : JSON} {e : Option update} (hv : utf8JSON v)
    (h : decodeElem v = some e) : ∀ u, e = some u → u.utf8 := by
  intro u hu
  subst hu
  cases hv with
  | object hk hvv =>
    simp only [decodeElem] at h
    obtain ⟨u1, hu1, heq⟩ := Option.map_eq_some'.1 h
    simp only [Option.some.injEq] at heq
    subst heq
    exact utf8_decodeStruct _ _ _ ⟨validUTF8_nil, utf8_empty⟩ hvv hu1
  | null => simp [decodeElem] at h
  | bool b => simp [decodeElem] at h
  | number => simp [decodeElem] at h
  | array _ => simp [decodeElem] at h
  | string _ => simp [decodeElem] at h

theorem utf8_decodeElems (vs : List JSON) (es : List (Option update))
    (hv : ∀ v ∈ vs, utf8JSON v) (h : decodeElems vs = some es) :
    ∀ u, some u ∈ es → u.utf8 := by
  induction vs generalizing es with
  | nil =>
    simp only [decodeElems, Option.some.injEq] at h
    subst h
    intro u hu
    exact absurd hu (List.not_mem_nil _)
  | cons v rest ih =>
    rw [decodeElems] at h
    cases hd : decodeElem v with
    | none => rw [hd] at h; exact absurd h (by simp)
    | some e =>
      rw [hd] at h
      simp only at h
      obtain ⟨es1, hes1, heq⟩ := Option.map_eq_some'.1 h
      subst heq
      intro u hu
      rcases List.mem_cons.1 hu with hu | hu
      · exact utf8_decodeElem (hv v (List.mem_cons_self _ _)) hd u hu.symm
      · exact ih es1 (fun x hx => hv x (List.mem_cons_of_mem _ hx)) hes1 u hu

/-- Every Update that `json.Unmarshal` stores holds valid UTF-8 only: strings are coerced
while they are read. -/
theorem utf8_jsonUnmarshalUpdates (data : GoString) (us : List (Option update))
    (h : jsonUnmarshalUpdates data = some us) : ∀ u, some u ∈ us → u.utf8 := by
  unfold jsonUnmarshalUpdates at h
  cases hp : parseJSON data with
  | none => rw [hp] at h; exact absurd h (by simp)
  | some v =>
    rw [hp] at h
    simp only [Option.bind] at h
    have hv := utf8JSON_parseJSON data v hp
    cases hv with
    | array hvs => exact utf8_decodeElems _ us hvs h
    | null =>
      simp only [decodeUpdates, Option.some.injEq] at h
      subst h
      intro u hu
      exact absurd hu (List.not_mem_nil _)
    | bool b => simp [decodeUpdates] at h
    | number => simp [decodeUpdates] at h
    | object _ _ => simp [decodeUpdates] at h
    | string _ => simp [decodeUpdates] at h

/-- Every mapping that `json.Unmarshal` stores holds valid UTF-8 only. -/
theorem utf8_jsonUnmarshalMap (data : GoString) (m : GoMap)
    (h : jsonUnmarshalMap data = some m) : m.utf8 := by
  unfold jsonUnmarshalMap at h
  cases hp : parseJSON data with
  | none => rw [hp] at h; exact absurd h (by simp)
  | some v =>
    rw [hp] at h
    simp only [Option.bind] at h
    exact utf8_decodeMapInto utf8_empty (utf8JSON_parseJSON data v hp) h

theorem utf8_applyUpdates (us : List (Option update)) (s : GoMap) (hs : s.utf8)
    (hus : ∀ u, some u ∈ us → u.utf8) : (applyUpdates s us).items.utf8 := by
  induction us generalizing s with
  | nil => exact hs
  | cons e rest ih =>
    cases e with
    | none => exact hs
    | some u =>
      rw [applyUpdates]
      exact ih _ (utf8_applyData hs (hus u (List.mem_cons_self _ _)).2)
        (fun x hx => hus x (List.mem_cons_of_mem _ hx))

/-- Invariant of the gossip path: a mapping that holds valid UTF-8 only still does after
`NotifyMsg`, whatever the message and however the call ends. -/
theorem NotifyMsg_utf8 (s : GoMap) (b : GoString) (hs : s.utf8) :
    (NotifyMsg s b).items.utf8 := by
  cases b with
  | nil => exact hs
  | cons tag payload =>
    unfold NotifyMsg
    simp only
    split_ifs
    · cases hd : jsonUnmarshalUpdates payload with
      | none => exact hs
      | some us => exact utf8_applyUpdates us s hs (utf8_jsonUnmarshalUpdates payload us hd)
    · exact hs

theorem utf8_mergeEntries {s m : GoMap} (hs : s.utf8) (hm : m.utf8) :
    (mergeEntries s m).utf8 := by
  have h := utf8_applyData (u := ⟨ascii "add", m⟩) hs hm
  have e : applyData s ⟨ascii "add", m⟩ = mergeEntries s m := by
    unfold applyData mergeEntries
    congr 1
  rw [e] at h
  exact h

/-- Invariant of the anti-entropy path: a mapping that holds valid UTF-8 only still does
after `MergeRemoteState`, whatever the snapshot. -/
theorem MergeRemoteState_utf8 (s : GoMap) (buf : GoString) (join : Bool) (hs : s.utf8) :
    (MergeRemoteState s buf join).utf8 := by
  unfold MergeRemoteState
  split_ifs
  · exact hs
  · exact hs
  · cases hd : jsonUnmarshalMap buf with
    | none => exact hs
    | some m => exact utf8_mergeEntries hs (utf8_jsonUnmarshalMap buf m hd)

/-! ## Anti-entropy: `LocalState` on one node, `MergeRemoteState` on another -/

theorem MergeRemoteState_LocalState_get (P N : GoMap) (hP : P.utf8) (k : GoString) :
    (MergeRemoteState N (LocalState P true) true).get k =
      match P.get k with
      | some v => some v
      | none => N.get k := by
  have hne : ¬ (LocalState P true).length = 0 := by
    simp [LocalState, jsonMarshalMap]
  unfold MergeRemoteState
  rw [if_neg hne]
  simp only [Bool.not_true, Bool.false_eq_true, if_false, LocalState]
  rw [jsonUnmarshalMap_jsonMarshalMap P hP]
  exact get_mergeEntries N P k

/-- C6 as stated fails for a missed `del`.  Both nodes hold `{"x": "1"}`; `P` applies the
gossiped `del` of `x` and `N` never receives it.  After `N` merges the snapshot of `P`
(join-time exchange), `N` still holds `x = 1`, while `P` reads `x` as absent. -/
theorem antiEntropy_missed_del_not_repaired :
    NotifyMsg exX1 (0x64 :: exDelX) = Outcome.returned GoMap.empty ∧
    (MergeRemoteState exX1 (LocalState GoMap.empty true) true).get (ascii "x")
      = some (ascii "1") ∧
    GoMap.empty.get (ascii "x") = none ∧
    getHandler (MergeRemoteState exX1 (LocalState GoMap.empty true) true) (ascii "x")
      ≠ getHandler GoMap.empty (ascii "x") := by
  decide

/-- Why C6 needs `P` to hold valid UTF-8 only.  `P` holds the key `0xFF` (stored by its own
`addHandler`) and applies the gossiped `add` of U+FFFD `= b`.  `json.Marshal` writes both
keys as U+FFFD, the entry of `0xFF` last, so after the merge `N` reads `a` under U+FFFD
where `P` reads `b`. -/
theorem antiEntropy_invalid_utf8_collision :
    NotifyMsg (GoMap.empty.set [0xFF] (ascii "a"))
        (addHandler GoMap.empty [0xEF, 0xBF, 0xBD] (ascii "b")).2.msg
      = Outcome.returned
          ((GoMap.empty.set [0xFF] (ascii "a")).set [0xEF, 0xBF, 0xBD] (ascii "b")) ∧
    (MergeRemoteState GoMap.empty
        (LocalState ((GoMap.empty.set [0xFF] (ascii "a")).set [0xEF, 0xBF, 0xBD] (ascii "b"))
          true) true).get [0xEF, 0xBF, 0xBD] = some (ascii "a") := by
  decide

/-- C6, amended.  `P`, whose mapping `sP` holds valid UTF-8 only, applies a gossiped `add`
Update that sets `k` to `v` and that `N` (mapping `sN`) never receives.  After one
exchange in which `N` merges the snapshot that `LocalState` produces on `P`
(`join = true`), a local read of `k` on `N` gives what it gives on `P`, the added value
`v`.  A key absent on `P` (such as after a `del` that `N` missed) keeps on `N` the
presence and value it had there: the merge removes nothing. -/
theorem antiEntropy_repairs_missed_add (sP sN : GoMap) (msg : GoString) (u : update)
    (k v : GoString) (hc : carries msg [u]) (hadd : u.Action = ascii "add")
    (hk : u.Data.get k = some v) (hP : sP.utf8) :
    NotifyMsg sP msg = Outcome.returned (applyData sP u) ∧
    (applyData sP u).get k = some v ∧
    (MergeRemoteState sN (LocalState (applyData sP u) true) true).get k = some v ∧
    getHandler (MergeRemoteState sN (LocalState (applyData sP u) true) true) k
      = getHandler (applyData sP u) k ∧
    (∀ k1, (applyData sP u).get k1 = none →
      (MergeRemoteState sN (LocalState (applyData sP u) true) true).get k1 = sN.get k1) := by
  obtain ⟨payload, hmsg, hdec⟩ := hc
  subst hmsg
  have hu : u.Data.utf8 :=
    (utf8_jsonUnmarshalUpdates payload _ hdec u (List.mem_cons_self _ _)).2
  have hP1 : (applyData sP u).utf8 := utf8_applyData hP hu
  have hget : (applyData sP u).get k = some v := by
    rw [get_applyData, stepKey, if_pos hadd, hk]
  have hm := MergeRemoteState_LocalState_get (applyData sP u) sN hP1
  refine ⟨NotifyMsg_updates sP [u] hdec, hget, ?_, ?_, ?_⟩
  · rw [hm k, hget]
  · unfold getHandler
    rw [hm k, hget]
  · intro k1 h1
    rw [hm k1, h1]

/-- Witness for C6 (amended): `P` holds `{"y": "7"}` and applies `add x = 1`; `N` holds
`{"x": "2"}`. -/
theorem antiEntropy_repairs_missed_add_witness :
    NotifyMsg exY7 (0x64 :: exAddX1) = Outcome.returned (applyData exY7 ⟨ascii "add", exX1⟩) ∧
    (MergeRemoteState exX2 (LocalState (applyData exY7 ⟨ascii "add", exX1⟩) true) true).get
      (ascii "x") = some (ascii "1") := by
  have h := antiEntropy_repairs_missed_add exY7 exX2 (0x64 :: exAddX1) ⟨ascii "add", exX1⟩
    (ascii "x") (ascii "1") ⟨exAddX1, rfl, by decide⟩ rfl (by decide) (by decide)
  exact ⟨h.1, h.2.2.1⟩

/-! ## The handlers' messages, delivered -/

theorem applyData_add_single (s : GoMap) (key val : GoString) :
    applyData s ⟨ascii "add", GoMap.empty.set key val⟩ = s.set key val := by
  simp [applyData, GoMap.set, GoMap.empty, insertEntry, applyEntry]

theorem applyData_del_single (s : GoMap) (key val : GoString) :
    applyData s ⟨ascii "del", GoMap.empty.set key val⟩ = s.delete key := by
  have hne : ascii "del" ≠ ascii "add" := by decide
  simp [applyData, GoMap.set, GoMap.empty, insertEntry, applyEntry, hne]

/-- C7 as stated fails for a key that is not valid UTF-8.  For the key `0xFF`, `addHandler`
stores the value under `0xFF` on the sender, but `json.Marshal` writes the key as
the escape for U+FFFD, so the receiver stores the value under U+FFFD (`EF BF BD`) and `0xFF` stays
absent there.  Likewise the message of `delHandler` for `0xFF` removes the receiver's
key U+FFFD and leaves its key `0xFF` in place. -/
theorem handler_message_invalid_utf8_key :
    (addHandler GoMap.empty [0xFF] (ascii "1")).1.get [0xFF] = some (ascii "1") ∧
    NotifyMsg GoMap.empty (addHandler GoMap.empty [0xFF] (ascii "1")).2.msg
      = Outcome.returned (GoMap.empty.set [0xEF, 0xBF, 0xBD] (ascii "1")) ∧
    (GoMap.empty.set [0xEF, 0xBF, 0xBD] (ascii "1")).get [0xFF] = none ∧
    NotifyMsg ((GoMap.empty.set [0xFF] (ascii "1")).set [0xEF, 0xBF, 0xBD] (ascii "2"))
        (delHandler GoMap.empty [0xFF]).2.msg
      = Outcome.returned (GoMap.empty.set [0xFF] (ascii "1")) := by
  decide

/-- C7, amended.  For every key and value that are valid UTF-8 and every receiver mapping
`s`: the message `addHandler` enqueues begins with the tag `d` and, delivered to
`NotifyMsg` on `s`, yields `s` with `key` set to `val` and every other key unchanged,
the change `addHandler` made to the sender's own mapping; the message `delHandler`
enqueues, delivered to `NotifyMsg` on `s`, yields `s` with `key` absent and every other
key unchanged, the change `delHandler` made on the sender. -/
theorem handler_message_roundtrip (sender s : GoMap) (key val : GoString)
    (hkey : validUTF8 key = true) (hval : validUTF8 val = true) :
    (∃ payload, (addHandler sender key val).2.msg = 0x64 :: payload) ∧
    NotifyMsg s (addHandler sender key val).2.msg = Outcome.returned (s.set key val) ∧
    (addHandler sender key val).1 = sender.set key val ∧
    (s.set key val).get key = some val ∧
    (∀ k, k ≠ key → (s.set key val).get k = s.get k) ∧
    (∃ payload, (delHandler sender key).2.msg = 0x64 :: payload) ∧
    NotifyMsg s (delHandler sender key).2.msg = Outcome.returned (s.delete key) ∧
    (delHandler sender key).1 = sender.delete key ∧
    (s.delete key).get key = none ∧
    (∀ k, k ≠ key → (s.delete key).get k = s.get k) := by
  have hadd := jsonUnmarshalUpdates_single ⟨ascii "add", GoMap.empty.set key val⟩
    (show validUTF8 (ascii "add") = true by decide)
    (utf8_set (fun _ h => absurd h (List.not_mem_nil _)) hkey hval)
  have hdel := jsonUnmarshalUpdates_single ⟨ascii "del", GoMap.empty.set key []⟩
    (show validUTF8 (ascii "del") = true by decide)
    (utf8_set (fun _ h => absurd h (List.not_mem_nil _)) hkey validUTF8_nil)
  refine ⟨⟨_, rfl⟩, ?_, rfl, GoMap.get_set_self _ _ _, fun k hk => GoMap.get_set_ne _ _ hk,
    ⟨_, rfl⟩, ?_, rfl, GoMap.get_delete_self _ _, fun k hk => GoMap.get_delete_ne _ hk⟩
  · have := NotifyMsg_updates s [⟨ascii "add", GoMap.empty.set key val⟩] hadd
    simp only [List.foldl_cons, List.foldl_nil, applyData_add_single] at this
    exact this
  · have := NotifyMsg_updates s [⟨ascii "del", GoMap.empty.set key []⟩] hdel
    simp only [List.foldl_cons, List.foldl_nil, applyData_del_single] at this
    exact this

/-- Witness for C7 (amended): key `x`, value `1`, sender holding `{"x": "2"}`, receiver
holding `{"y": "7"}`. -/
theorem handler_message_roundtrip_witness :
    NotifyMsg exY7 (addHandler exX2 (ascii "x") (ascii "1")).2.msg
      = Outcome.returned (exY7.set (ascii "x") (ascii "1")) ∧
    NotifyMsg exY7 (delHandler exX2 (ascii "x")).2.msg
      = Outcome.returned (exY7.delete (ascii "x")) := by
  have h := handler_message_roundtrip exX2 exY7 (ascii "x") (ascii "1") (by decide)
    (by decide)
  exact ⟨h.2.1, h.2.2.2.2.2.2.1⟩

end Gossipdemo
